import Mathlib

/-!
# urara: numeric_range and the path functions of os

A shallow embedding of `include/urara/numeric_range.hpp` and of `join`, `dirname`
and `basename` of `include/urara/os.hpp`.

* The values of the element type `T` are denoted by integers and compared as
  integers.  What differs between element types is the addition the increment
  policies perform, and it comes in three forms: `Increment.apply` adds over the
  unbounded integers, `Increment.apply_wrap` adds modulo `2^w` as a `w`-bit
  unsigned type does, and `Increment.apply_in` adds with an arbitrary `add`, which
  stands for any element type.  Each has its own prefix increment and loop.
* The two increment policies (`increment_traits`, `increment_by_traits`) are the
  two constructors of `Increment`.
* A `numeric_range` object lives in a heap (`Heap`, a list of ranges addressed by
  index); a `numeric_range*` is an `Option Nat`, `none` being `nullptr`.
* A thrown `std::runtime_error` is `Error.runtime_error what`.  Reading through a
  null or dangling pointer, which is undefined behaviour in C++, is trapped as
  `Error.undefined_behavior`.
* Member functions that mutate the range return the heap after the call next to
  their result, so that the heap after a throw can be observed.
* The observers `begin`, `end`, `operator*`, `operator==` and `operator!=` are
  given twice: as functions of the heap, and as transitions (`begin_st` and so on)
  that return the state they leave.
* A `std::string` is a list of characters.
-/

namespace urara

/-- Abnormal outcomes: a thrown `std::runtime_error` carrying its message, or a
trapped read through a null or dangling `numeric_range*`. -/
inductive Error where
  | runtime_error (what : String)
  | undefined_behavior
deriving DecidableEq, Repr

/-- The enum `numeric_range::direction`. -/
inductive direction where
  | increasing
  | decreasing
deriving DecidableEq, Repr

/-- The `Increment` template argument: `increment_traits<T>` (stateless) or
`increment_by_traits<T>` (holding `delta`). -/
inductive Increment where
  | increment_traits
  | increment_by_traits (delta : Int)
deriving DecidableEq, Repr

/-- The call operator of the policy over the unbounded integers: `++x` for
`increment_traits`, `x += delta` for `increment_by_traits`.  The new value of `x`
is returned. -/
def Increment.apply : Increment → Int → Int
  | .increment_traits, x => x + 1
  | .increment_by_traits delta, x => x + delta

/-- The data members of `numeric_range<T, Increment>`. -/
structure numeric_range where
  current : Int
  final : Int
  inc : Increment
  dir : direction
deriving DecidableEq, Repr

/-- The store of live `numeric_range` objects; an address is an index. -/
abbrev Heap := List numeric_range

/-- The constructor `numeric_range(from, to)`: the policy is default constructed
(`increment_traits`), the direction is `increasing`. -/
def numeric_range.ctor2 (from_ to_ : Int) : numeric_range :=
  { current := from_, final := to_, inc := Increment.increment_traits,
    dir := direction.increasing }

/-- The constructor `numeric_range(from, to, inc, dir)`. -/
def numeric_range.ctor4 (from_ to_ : Int) (inc : Increment) (dir : direction) :
    numeric_range :=
  { current := from_, final := to_, inc := inc, dir := dir }

/-- The private member `numeric_range::is_end`. -/
def numeric_range.is_end (r : numeric_range) : Bool :=
  match r.dir with
  | .increasing => decide (r.current ≥ r.final)
  | .decreasing => decide (r.current ≤ r.final)

/-- The class `numeric_range::iterator`: its one data member, the pointer `range`. -/
structure iterator where
  range : Option Nat
deriving DecidableEq, Repr

/-- The member `iterator::check_done`: a non-null iterator whose range is at its
end drops its pointer.  The updated iterator is returned. -/
def iterator.check_done (h : Heap) (it : iterator) : Except Error iterator :=
  match it.range with
  | none => .ok it
  | some a =>
    match h[a]? with
    | none => .error Error.undefined_behavior
    | some r => if r.is_end then .ok { range := none } else .ok it

/-- The constructor `iterator(numeric_range* _range)`. -/
def iterator.ctor (h : Heap) (_range : Option Nat) : Except Error iterator :=
  iterator.check_done h { range := _range }

/-- The member `numeric_range::begin` of the range at address `self`. -/
def numeric_range.begin (h : Heap) (self : Nat) : Except Error iterator :=
  iterator.ctor h (some self)

/-- The member `numeric_range::end` of the range at address `self`
(`end` is a reserved word, hence the underscore). -/
def numeric_range.end_ (h : Heap) (_self : Nat) : Except Error iterator :=
  iterator.ctor h none

/-- Prefix `iterator::operator++`.  Returns the heap after the call and either the
updated iterator or what was raised. -/
def iterator.preinc (h : Heap) (it : iterator) : Heap × Except Error iterator :=
  match it.range with
  | none => (h, .error (Error.runtime_error "increment a past-the-end iterator."))
  | some a =>
    match h[a]? with
    | none => (h, .error Error.undefined_behavior)
    | some r =>
      let h1 := h.set a { r with current := r.inc.apply r.current }
      (h1, iterator.check_done h1 it)

/-- The member `iterator::operator*`. -/
def iterator.deref (h : Heap) (it : iterator) : Except Error Int :=
  match it.range with
  | none => .error Error.undefined_behavior
  | some a =>
    match h[a]? with
    | none => .error Error.undefined_behavior
    | some r => .ok r.current

/-- The class `iterator::postinc_return`. -/
structure postinc_return where
  value : Int
deriving DecidableEq, Repr

/-- The member `postinc_return::operator*`. -/
def postinc_return.deref (p : postinc_return) : Int := p.value

/-- Postfix `iterator::operator++(int)`: snapshot `**this`, then `++*this`. -/
def iterator.postinc (h : Heap) (it : iterator) :
    Heap × Except Error (postinc_return × iterator) :=
  match it.deref h with
  | .error e => (h, .error e)
  | .ok v =>
    let temp : postinc_return := { value := v }
    match it.preinc h with
    | (h1, .error e) => (h1, .error e)
    | (h1, .ok it1) => (h1, .ok (temp, it1))

/-- The member `iterator::operator==`: pointer comparison. -/
def iterator.eq (it rhs : iterator) : Bool :=
  it.range == rhs.range

/-- The member `iterator::operator!=`. -/
def iterator.ne (it rhs : iterator) : Bool :=
  !(it.eq rhs)

/-- The factory `range(from, to)`. -/
def range2 (from_ to_ : Int) : numeric_range :=
  numeric_range.ctor2 from_ to_

/-- The factory `range(to)`; `T()` is `0`. -/
def range1 (to_ : Int) : numeric_range :=
  numeric_range.ctor2 0 to_

/-- The factory `range(from, to, delta)`. -/
def range3 (from_ to_ delta : Int) : Except Error numeric_range :=
  if delta = 0 then
    .error (Error.runtime_error "step must be non-zero.")
  else
    let dir := if delta > 0 then direction.increasing else direction.decreasing
    .ok (numeric_range.ctor4 from_ to_ (Increment.increment_by_traits delta) dir)

/-- What a run of the idiomatic loop leaves behind: the heap, the values yielded in
order, and the error that ended the run, if any. -/
structure Trace where
  heap : Heap
  yielded : List Int
  raised : Option Error
deriving DecidableEq, Repr

/-- The body of `for (; it != r.end(); ++it) yield(*it);` over the range at address
`self`, run for at most `fuel` tests of the loop condition; `none` when the fuel
runs out first. -/
def loop (self : Nat) : Nat → Heap → iterator → Option Trace
  | 0, _, _ => none
  | fuel + 1, h, it =>
    match numeric_range.end_ h self with
    | .error e => some { heap := h, yielded := [], raised := some e }
    | .ok e =>
      if it.ne e then
        match it.deref h with
        | .error err => some { heap := h, yielded := [], raised := some err }
        | .ok v =>
          match it.preinc h with
          | (h1, .error err) => some { heap := h1, yielded := [v], raised := some err }
          | (h1, .ok it1) =>
            match loop self fuel h1 it1 with
            | none => none
            | some t => some { t with yielded := v :: t.yielded }
      else
        some { heap := h, yielded := [], raised := none }

/-- The idiomatic loop `for (auto it = r.begin(); it != r.end(); ++it) yield(*it);`
over the range at address `self`. -/
def for_each (fuel : Nat) (h : Heap) (self : Nat) : Option Trace :=
  match numeric_range.begin h self with
  | .error e => some { heap := h, yielded := [], raised := some e }
  | .ok it => loop self fuel h it

/-- One step of a client that drives an iterator: `++it` or `it++`. -/
inductive IterOp where
  | preinc
  | postinc
deriving DecidableEq, Repr

/-- A client that applies the given increments to one iterator, in order, and stops
at the first one that fails.  Returns the heap, the iterator, and what was raised,
if anything; a failed increment leaves the iterator as it was. -/
def drive : List IterOp → Heap → iterator → Heap × iterator × Option Error
  | [], h, it => (h, it, none)
  | IterOp.preinc :: ops, h, it =>
    match it.preinc h with
    | (h1, .error e) => (h1, it, some e)
    | (h1, .ok it1) => drive ops h1 it1
  | IterOp.postinc :: ops, h, it =>
    match it.postinc h with
    | (h1, .error e) => (h1, it, some e)
    | (h1, .ok (_, it1)) => drive ops h1 it1

/-! ### A `w`-bit unsigned element type

The values of the type are the integers in `[0, 2^w)`; comparisons are those of the
integers, and only the increment policies do arithmetic, which wraps modulo `2^w`. -/

/-- The call operator of the policy over a `w`-bit unsigned element type. -/
def Increment.apply_wrap (w : Nat) : Increment → Int → Int
  | .increment_traits, x => (x + 1) % 2 ^ w
  | .increment_by_traits delta, x => (x + delta) % 2 ^ w

/-- Prefix `iterator::operator++` over a `w`-bit unsigned element type. -/
def iterator.preinc_wrap (w : Nat) (h : Heap) (it : iterator) :
    Heap × Except Error iterator :=
  match it.range with
  | none => (h, .error (Error.runtime_error "increment a past-the-end iterator."))
  | some a =>
    match h[a]? with
    | none => (h, .error Error.undefined_behavior)
    | some r =>
      let h1 := h.set a { r with current := r.inc.apply_wrap w r.current }
      (h1, iterator.check_done h1 it)

/-- The body of the idiomatic loop over a `w`-bit unsigned element type. -/
def loop_wrap (w : Nat) (self : Nat) : Nat → Heap → iterator → Option Trace
  | 0, _, _ => none
  | fuel + 1, h, it =>
    match numeric_range.end_ h self with
    | .error e => some { heap := h, yielded := [], raised := some e }
    | .ok e =>
      if it.ne e then
        match it.deref h with
        | .error err => some { heap := h, yielded := [], raised := some err }
        | .ok v =>
          match it.preinc_wrap w h with
          | (h1, .error err) => some { heap := h1, yielded := [v], raised := some err }
          | (h1, .ok it1) =>
            match loop_wrap w self fuel h1 it1 with
            | none => none
            | some t => some { t with yielded := v :: t.yielded }
      else
        some { heap := h, yielded := [], raised := none }

/-- The idiomatic loop over a `w`-bit unsigned element type. -/
def for_each_wrap (w : Nat) (fuel : Nat) (h : Heap) (self : Nat) : Option Trace :=
  match numeric_range.begin h self with
  | .error e => some { heap := h, yielded := [], raised := some e }
  | .ok it => loop_wrap w self fuel h it

/-! ### An arbitrary element type

The template is instantiated with element types of fixed width as well.  Their
values are denoted by integers and compared as integers; their addition is a
parameter `add`, of which nothing is assumed: it may wrap, as unsigned addition
does, or do anything else on overflow. -/

/-- The call operator of the policy over an element type whose addition is `add`:
`++x` is `add x 1`, `x += delta` is `add x delta`. -/
def Increment.apply_in (add : Int → Int → Int) : Increment → Int → Int
  | .increment_traits, x => add x 1
  | .increment_by_traits delta, x => add x delta

/-- Prefix `iterator::operator++` over an element type whose addition is `add`. -/
def iterator.preinc_in (add : Int → Int → Int) (h : Heap) (it : iterator) :
    Heap × Except Error iterator :=
  match it.range with
  | none => (h, .error (Error.runtime_error "increment a past-the-end iterator."))
  | some a =>
    match h[a]? with
    | none => (h, .error Error.undefined_behavior)
    | some r =>
      let h1 := h.set a { r with current := r.inc.apply_in add r.current }
      (h1, iterator.check_done h1 it)

/-- The body of the idiomatic loop over an element type whose addition is `add`. -/
def loop_in (add : Int → Int → Int) (self : Nat) : Nat → Heap → iterator → Option Trace
  | 0, _, _ => none
  | fuel + 1, h, it =>
    match numeric_range.end_ h self with
    | .error e => some { heap := h, yielded := [], raised := some e }
    | .ok e =>
      if it.ne e then
        match it.deref h with
        | .error err => some { heap := h, yielded := [], raised := some err }
        | .ok v =>
          match it.preinc_in add h with
          | (h1, .error err) => some { heap := h1, yielded := [v], raised := some err }
          | (h1, .ok it1) =>
            match loop_in add self fuel h1 it1 with
            | none => none
            | some t => some { t with yielded := v :: t.yielded }
      else
        some { heap := h, yielded := [], raised := none }

/-- The idiomatic loop over an element type whose addition is `add`. -/
def for_each_in (add : Int → Int → Int) (fuel : Nat) (h : Heap) (self : Nat) :
    Option Trace :=
  match numeric_range.begin h self with
  | .error e => some { heap := h, yielded := [], raised := some e }
  | .ok it => loop_in add self fuel h it

/-! ### The observers as transitions

The observing member functions once more, with the state they run in made
explicit, so that what they leave unchanged can be stated. -/

/-- The state a member function of `iterator` runs in: the store of ranges and the
iterator object `*this`. -/
structure IterState where
  heap : Heap
  self : iterator
deriving DecidableEq, Repr

/-- The member `iterator::check_done` as a transition,
`if (range != nullptr && range->is_end()) range = nullptr;`: its one write goes to
the member `range` of `*this`. -/
def check_done_st (s : IterState) : Except Error IterState :=
  match s.self.range with
  | none => .ok s
  | some a =>
    match s.heap[a]? with
    | none => .error Error.undefined_behavior
    | some r =>
      if r.is_end then .ok { heap := s.heap, self := { range := none } } else .ok s

/-- The constructor `iterator(numeric_range* _range)` as a transition: the member
`range` is initialised, then `check_done()` runs. -/
def ctor_st (h : Heap) (_range : Option Nat) : Except Error IterState :=
  check_done_st { heap := h, self := { range := _range } }

/-- The member `numeric_range::begin` as a transition: `return iterator(this);`. -/
def begin_st (h : Heap) (self : Nat) : Except Error IterState :=
  ctor_st h (some self)

/-- The member `numeric_range::end` as a transition: `return iterator(nullptr);`. -/
def end_st (h : Heap) (_self : Nat) : Except Error IterState :=
  ctor_st h none

/-- The member `iterator::operator*` as a transition: `return range->current;`. -/
def deref_st (s : IterState) : Except Error (IterState × Int) :=
  match s.self.range with
  | none => .error Error.undefined_behavior
  | some a =>
    match s.heap[a]? with
    | none => .error Error.undefined_behavior
    | some r => .ok (s, r.current)

/-- The member `iterator::operator==` as a transition: `return range == rhs.range;`. -/
def eq_st (s : IterState) (rhs : iterator) : IterState × Bool :=
  (s, s.self.range == rhs.range)

/-- The member `iterator::operator!=` as a transition: `return !(*this == rhs);`. -/
def ne_st (s : IterState) (rhs : iterator) : IterState × Bool :=
  match eq_st s rhs with
  | (s1, b) => (s1, !b)

/-- The exhausted test `r.begin() == r.end()` on the range at address `self`, as a
transition of the store of ranges: `begin()`, then `end()` on the store `begin()`
left, then the comparison on the store `end()` left. -/
def exhausted_test (h : Heap) (self : Nat) : Except Error (Heap × Bool) :=
  match begin_st h self with
  | .error e => .error e
  | .ok s1 =>
    match end_st s1.heap self with
    | .error e => .error e
    | .ok s2 =>
      match eq_st { heap := s2.heap, self := s1.self } s2.self with
      | (s3, b) => .ok (s3.heap, b)

/-! ### `include/urara/os.hpp`: the path functions

A `std::string` is a list of characters.  A call that would throw
`std::out_of_range` returns `none`. -/

namespace os

/-- The library call `std::string::find_last_of(char)`: the index of the last
occurrence, `none` for `npos`. -/
def find_last_of : List Char → Char → Option Nat
  | [], _ => none
  | x :: xs, c =>
    match find_last_of xs c with
    | some i => some (i + 1)
    | none => if x = c then some 0 else none

/-- The library call `std::string::substr(pos, count)`. -/
def substr (s : List Char) (pos count : Nat) : Option (List Char) :=
  if pos > s.length then none else some ((s.drop pos).take count)

/-- The library call `std::string::substr(pos)`. -/
def substr_from (s : List Char) (pos : Nat) : Option (List Char) :=
  if pos > s.length then none else some (s.drop pos)

/-- The function `os::join`. -/
def join (dirname basename : List Char) : Option (List Char) :=
  if dirname.length = 0 then
    some basename
  else if basename.length = 0 then
    some dirname
  else if dirname.getLast? = some '/' then
    if basename.head? = some '/' then
      match substr_from basename 1 with
      | none => none
      | some b => some (dirname ++ b)
    else
      some (dirname ++ basename)
  else
    if basename.head? = some '/' then
      some (dirname ++ basename)
    else
      some (dirname ++ '/' :: basename)

/-- The function `os::dirname`. -/
def dirname (path : List Char) : Option (List Char) :=
  match find_last_of path '/' with
  | none => some []
  | some pos => substr path 0 pos

/-- The function `os::basename`. -/
def basename (path : List Char) : Option (List Char) :=
  match find_last_of path '/' with
  | none => some path
  | some pos => substr_from path (pos + 1)

end os

/-! ## Basic facts about the iterator operations -/

theorem heap_set_same (h : Heap) (a : Nat) (r : numeric_range) (ha : h[a]? = some r) :
    h.set a r = h := by
  induction h generalizing a with
  | nil => rfl
  | cons x xs ih =>
    cases a with
    | zero => simp at ha; simp [ha]
    | succ b => simp at ha; simp [ih b ha]

theorem heap_get_set (h : Heap) (a : Nat) (r s : numeric_range) (ha : h[a]? = some r) :
    (h.set a s)[a]? = some s := by
  have hlt : a < h.length := by
    rcases Nat.lt_or_ge a h.length with hl | hl
    · exact hl
    · rw [List.getElem?_eq_none hl] at ha; cases ha
  simp [List.getElem?_set, hlt]

theorem end_eq (h : Heap) (a : Nat) : numeric_range.end_ h a = .ok { range := none } := rfl

theorem begin_eq (h : Heap) (a : Nat) (r : numeric_range) (ha : h[a]? = some r) :
    numeric_range.begin h a = .ok { range := if r.is_end then none else some a } := by
  simp only [numeric_range.begin, iterator.ctor, iterator.check_done, ha]
  split <;> rfl

theorem preinc_active (h : Heap) (a : Nat) (r : numeric_range) (ha : h[a]? = some r) :
    iterator.preinc h { range := some a } =
      (h.set a { r with current := r.inc.apply r.current },
        numeric_range.begin (h.set a { r with current := r.inc.apply r.current }) a) := by
  simp only [iterator.preinc, ha, numeric_range.begin, iterator.ctor]

theorem preinc_ended (h : Heap) :
    iterator.preinc h { range := none } =
      (h, .error (Error.runtime_error "increment a past-the-end iterator.")) := rfl

theorem deref_active (h : Heap) (a : Nat) (r : numeric_range) (ha : h[a]? = some r) :
    iterator.deref h { range := some a } = .ok r.current := by
  simp only [iterator.deref, ha]

theorem loop_ended (self fuel : Nat) (h : Heap) :
    loop self (fuel + 1) h { range := none } =
      some { heap := h, yielded := [], raised := none } := rfl

theorem loop_active (self fuel : Nat) (h : Heap) (r : numeric_range)
    (ha : h[self]? = some r) :
    loop self (fuel + 1) h { range := some self } =
      (loop self fuel (h.set self { r with current := r.inc.apply r.current })
        { range := if numeric_range.is_end { r with current := r.inc.apply r.current }
                   then none else some self }).map
        (fun t => { t with yielded := r.current :: t.yielded }) := by
  have hb := begin_eq _ self _
    (heap_get_set h self r { r with current := r.inc.apply r.current } ha)
  rw [loop, end_eq, deref_active h self r ha, preinc_active h self r ha, hb]
  simp only [iterator.ne, iterator.eq]
  cases loop self fuel (h.set self { r with current := r.inc.apply r.current })
    { range := if numeric_range.is_end { r with current := r.inc.apply r.current }
               then none else some self } <;> simp

/-! ## The idiomatic loop over an arithmetic progression -/

/-- A range whose policy adds `d` and whose `m`-th successor is the first one at
which `is_end` holds yields its first `m` successors and leaves `current` at the
`m`-th one. -/
theorem loop_progression (self : Nat) (d : Int) :
    ∀ (m : Nat) (h : Heap) (r : numeric_range) (fuel : Nat),
      h[self]? = some r →
      (∀ x, r.inc.apply x = x + d) →
      (∀ k : Nat, k < m →
        numeric_range.is_end { r with current := r.current + k * d } = false) →
      numeric_range.is_end { r with current := r.current + m * d } = true →
      m < fuel →
      loop self fuel h { range := if r.is_end then none else some self } =
        some { heap := h.set self { r with current := r.current + m * d },
               yielded := (List.range m).map (fun (k : Nat) => r.current + (k : Int) * d),
               raised := none } := by
  intro m
  induction m with
  | zero =>
    intro h r fuel ha _ _ hend hf
    obtain ⟨f, rfl⟩ : ∃ f, fuel = f + 1 := ⟨fuel - 1, by omega⟩
    have hr : { r with current := r.current + ((0 : Nat) : Int) * d } = r := by simp
    rw [hr] at hend
    rw [hr, hend, heap_set_same h self r ha]
    simp [loop_ended]
  | succ m ih =>
    intro h r fuel ha hinc hlt hend hf
    obtain ⟨f, rfl⟩ : ∃ f, fuel = f + 1 := ⟨fuel - 1, by omega⟩
    have h0 : r.is_end = false := by
      have := hlt 0 (Nat.succ_pos m)
      simpa using this
    have hcur : r.inc.apply r.current = r.current + d := hinc r.current
    have key := ih (h.set self { r with current := r.current + d })
      { r with current := r.current + d } f
      (heap_get_set h self r _ ha) hinc
      (by
        intro k hk
        have := hlt (k + 1) (Nat.succ_lt_succ hk)
        have e : r.current + d + (k : Int) * d = r.current + ((k + 1 : Nat) : Int) * d := by
          push_cast; ring
        simpa [e] using this)
      (by
        have e : r.current + d + (m : Int) * d = r.current + ((m + 1 : Nat) : Int) * d := by
          push_cast; ring
        simpa [e] using hend)
      (by omega)
    rw [h0]
    simp only [Bool.false_eq_true, if_false]
    rw [loop_active self f h r ha, hcur, key]
    have e : r.current + d + (m : Int) * d = r.current + ((m + 1 : Nat) : Int) * d := by
      push_cast; ring
    simp only [Option.map_some', List.set_set, e]
    congr 2
    rw [List.range_succ_eq_map, List.map_cons, List.map_map]
    simp only [Nat.cast_zero, zero_mul, add_zero, List.cons.injEq, true_and]
    apply List.map_congr_left
    intro k _
    simp only [Function.comp, Nat.succ_eq_add_one]
    push_cast; ring

/-- The idiomatic loop, started with `begin`, over such a range. -/
theorem for_each_progression (self : Nat) (d : Int) (m : Nat) (h : Heap)
    (r : numeric_range) (fuel : Nat)
    (ha : h[self]? = some r)
    (hinc : ∀ x, r.inc.apply x = x + d)
    (hlt : ∀ k : Nat, k < m →
      numeric_range.is_end { r with current := r.current + k * d } = false)
    (hend : numeric_range.is_end { r with current := r.current + m * d } = true)
    (hf : m < fuel) :
    for_each fuel h self =
      some { heap := h.set self { r with current := r.current + m * d },
             yielded := (List.range m).map (fun (k : Nat) => r.current + (k : Int) * d),
             raised := none } := by
  rw [for_each, begin_eq h self r ha]
  exact loop_progression self d m h r fuel ha hinc hlt hend hf

/-- An ascending progression with a positive step passes any bound: there is a
number `m` of terms strictly below the bound, and they are the first `m`. -/
theorem first_ge (c f d : Int) (hd : 0 < d) :
    ∃ m : Nat, ∀ k : Nat, k < m ↔ c + (k : Int) * d < f := by
  have hex : ∃ k : Nat, f ≤ c + (k : Int) * d := by
    refine ⟨(f - c).toNat, ?_⟩
    have h1 : f - c ≤ ((f - c).toNat : Int) := Int.self_le_toNat _
    have h2 : (0 : Int) ≤ ((f - c).toNat : Int) := Int.ofNat_nonneg _
    nlinarith
  refine ⟨Nat.find hex, fun k => ⟨fun hk => ?_, fun hk => ?_⟩⟩
  · exact not_le.mp (Nat.find_min hex hk)
  · by_contra hge
    have hge : Nat.find hex ≤ k := not_lt.mp hge
    have hm : f ≤ c + ((Nat.find hex : Nat) : Int) * d := Nat.find_spec hex
    have hc : ((Nat.find hex : Nat) : Int) ≤ (k : Int) := by exact_mod_cast hge
    nlinarith

/-- The mirror image of `first_ge` for a negative step. -/
theorem first_le (c f d : Int) (hd : d < 0) :
    ∃ m : Nat, ∀ k : Nat, k < m ↔ c + (k : Int) * d > f := by
  obtain ⟨m, hm⟩ := first_ge (-c) (-f) (-d) (by omega)
  refine ⟨m, fun k => ?_⟩
  rw [hm k]
  constructor <;> intro hk <;> nlinarith

/-- Over a range that is at its end the idiomatic loop yields nothing and leaves
the heap as it was. -/
theorem for_each_exhausted (h : Heap) (a : Nat) (r : numeric_range) (fuel : Nat)
    (ha : h[a]? = some r) (hend : r.is_end = true) (hf : 0 < fuel) :
    for_each fuel h a = some { heap := h, yielded := [], raised := none } := by
  obtain ⟨f, rfl⟩ : ∃ f, fuel = f + 1 := ⟨fuel - 1, by omega⟩
  rw [for_each, begin_eq h a r ha, hend]
  exact loop_ended a f h

/-! ## The factories and the idiomatic loop -/

/-- C1: for every integer `n > 0`, the idiomatic loop over `range(0, n)`, and
likewise over `range(n)`, stored at any address of any heap, ends without an error
once it has more than `n` units of fuel and has yielded exactly `0, 1, ..., n-1`
in this order, which are `n` elements. -/
theorem range_zero_to_n_yields (n : Int) (hn : 0 < n) (r : numeric_range)
    (hr : r = range2 0 n ∨ r = range1 n) (h : Heap) (a : Nat) (ha : h[a]? = some r)
    (fuel : Nat) (hf : n.toNat < fuel) :
    ∃ t, for_each fuel h a = some t ∧ t.raised = none ∧
      t.yielded = (List.range n.toNat).map (fun (k : Nat) => (k : Int)) ∧
      (t.yielded.length : Int) = n := by
  have hr2 : r = numeric_range.ctor2 0 n := by
    rcases hr with hr | hr <;> exact hr
  subst hr2
  have hrun := for_each_progression a 1 n.toNat h (numeric_range.ctor2 0 n) fuel ha
    (fun x => rfl)
    (by
      intro k hk
      have : (k : Int) < n := by omega
      simp only [numeric_range.is_end, numeric_range.ctor2, decide_eq_false_iff_not]
      omega)
    (by
      have : ((n.toNat : Nat) : Int) = n := Int.toNat_of_nonneg (le_of_lt hn)
      simp only [numeric_range.is_end, numeric_range.ctor2, decide_eq_true_eq]
      omega)
    hf
  refine ⟨_, hrun, rfl, ?_, ?_⟩
  · simp [numeric_range.ctor2]
  · simp only [List.length_map, List.length_range]
    exact Int.toNat_of_nonneg (le_of_lt hn)

/-- The instance of C1 at `n = 3`, for `range(3)` alone in the heap and four units
of fuel. -/
theorem range_zero_to_n_yields_witness :
    ∃ t, for_each 4 [range1 3] 0 = some t ∧ t.raised = none ∧
      t.yielded = (List.range (3 : Int).toNat).map (fun (k : Nat) => (k : Int)) ∧
      (t.yielded.length : Int) = 3 :=
  range_zero_to_n_yields 3 (by decide) (range1 3) (Or.inr rfl) [range1 3] 0 rfl 4
    (by decide)

/-- C3: `range(from, to, delta)` throws, and then it throws the runtime error
"step must be non-zero.", if and only if `delta` is zero, whatever `from` and `to`
are; for a non-zero `delta` it returns at once a range with `current = from`,
`final = to`, the fixed-delta policy holding `delta`, and a direction that is
`increasing` exactly when `delta > 0` (and `decreasing` otherwise). -/
theorem range_step_throws_iff (from_ to_ delta : Int) :
    (range3 from_ to_ delta = .error (Error.runtime_error "step must be non-zero.")
      ↔ delta = 0) ∧
    ((∃ e, range3 from_ to_ delta = .error e) ↔ delta = 0) ∧
    (delta ≠ 0 →
      ∃ r, range3 from_ to_ delta = .ok r ∧ r.current = from_ ∧ r.final = to_ ∧
        r.inc = Increment.increment_by_traits delta ∧
        (r.dir = direction.increasing ↔ delta > 0) ∧
        (r.dir = direction.decreasing ↔ ¬ delta > 0)) := by
  by_cases hd : delta = 0
  · subst hd
    refine ⟨⟨fun _ => rfl, fun _ => rfl⟩, ⟨fun _ => rfl, fun _ => ⟨_, rfl⟩⟩, ?_⟩
    intro h; exact absurd rfl h
  · have hok : range3 from_ to_ delta = .ok (numeric_range.ctor4 from_ to_
        (Increment.increment_by_traits delta)
        (if delta > 0 then direction.increasing else direction.decreasing)) := by
      simp only [range3, hd, if_false]
    refine ⟨⟨fun he => ?_, fun h0 => absurd h0 hd⟩,
      ⟨fun he => ?_, fun h0 => absurd h0 hd⟩, fun _ => ⟨_, hok, rfl, rfl, rfl, ?_, ?_⟩⟩
    · rw [hok] at he; cases he
    · obtain ⟨e, he⟩ := he; rw [hok] at he; cases he
    · by_cases hp : delta > 0 <;> simp [numeric_range.ctor4, hp]
    · by_cases hp : delta > 0 <;> simp [numeric_range.ctor4, hp]

/-- The instance of C3 at `range(7, 1, -3)`: it is returned, descending. -/
theorem range_step_throws_iff_witness :
    ∃ r, range3 7 1 (-3) = .ok r ∧ r.current = 7 ∧ r.final = 1 ∧
      r.inc = Increment.increment_by_traits (-3) ∧
      (r.dir = direction.increasing ↔ (-3 : Int) > 0) ∧
      (r.dir = direction.decreasing ↔ ¬ (-3 : Int) > 0) :=
  (range_step_throws_iff 7 1 (-3)).2.2 (by decide)

/-! ## Prefix and postfix increment -/

/-- C4: prefix increment throws, and then it throws the runtime error
"increment a past-the-end iterator.", if and only if the iterator holds the null
pointer; whenever it does not return an iterator the heap is left as it was.
For `range(0, 1)` stored at any address, `begin()` points at the range, one prefix
increment makes the iterator equal to `end()`, and one more throws that error and
leaves the heap alone. -/
theorem preinc_throws_iff_ended :
    (∀ (h : Heap) (it : iterator),
      (it.preinc h).2 = .error (Error.runtime_error "increment a past-the-end iterator.")
        ↔ it.range = none) ∧
    (∀ (h : Heap) (it : iterator),
      (∃ what, (it.preinc h).2 = .error (Error.runtime_error what)) ↔ it.range = none) ∧
    (∀ (h : Heap) (it : iterator) (e : Error),
      (it.preinc h).2 = .error e → (it.preinc h).1 = h) ∧
    (∀ (h : Heap) (a : Nat), h[a]? = some (range2 0 1) →
      ∃ it0 h1 it1 e,
        numeric_range.begin h a = .ok it0 ∧ it0.range = some a ∧
        it0.preinc h = (h1, .ok it1) ∧
        numeric_range.end_ h1 a = .ok e ∧ it1.eq e = true ∧
        it1.preinc h1 =
          (h1, .error (Error.runtime_error "increment a past-the-end iterator."))) := by
  have hcases : ∀ (h : Heap) (it : iterator),
      (it.range = none ∧ it.preinc h =
        (h, .error (Error.runtime_error "increment a past-the-end iterator."))) ∨
      (it.range ≠ none ∧ it.preinc h = (h, .error Error.undefined_behavior)) ∨
      (it.range ≠ none ∧ ∃ h1 it1, it.preinc h = (h1, .ok it1)) := by
    intro h it
    obtain ⟨p⟩ := it
    cases p with
    | none => exact Or.inl ⟨rfl, rfl⟩
    | some a =>
      right
      cases hg : h[a]? with
      | none => left; exact ⟨by simp, by simp [iterator.preinc, hg]⟩
      | some r =>
        right
        refine ⟨by simp, ?_⟩
        rw [preinc_active h a r hg, begin_eq _ a _ (heap_get_set h a r _ hg)]
        exact ⟨_, _, rfl⟩
  refine ⟨fun h it => ?_, fun h it => ?_, fun h it e he => ?_, fun h a ha => ?_⟩
  · rcases hcases h it with ⟨hn, hp⟩ | ⟨hn, hp⟩ | ⟨hn, h1, it1, hp⟩
    · simp [hn, hp]
    · simp [hn, hp]
    · simp [hn, hp]
  · rcases hcases h it with ⟨hn, hp⟩ | ⟨hn, hp⟩ | ⟨hn, h1, it1, hp⟩
    · simp [hn, hp]
    · simp [hn, hp]
    · simp [hn, hp]
  · rcases hcases h it with ⟨hn, hp⟩ | ⟨hn, hp⟩ | ⟨hn, h1, it1, hp⟩
    · simp [hp]
    · simp [hp]
    · rw [hp] at he; cases he
  · refine ⟨{ range := some a },
      h.set a { range2 0 1 with current := (range2 0 1).inc.apply (range2 0 1).current },
      { range := none }, { range := none },
      begin_eq h a _ ha, rfl, ?_, rfl, rfl, rfl⟩
    rw [preinc_active h a _ ha, begin_eq _ a _ (heap_get_set h a _ _ ha)]
    rfl

/-- The scenario of C4 for `range(0, 1)` alone in the heap. -/
theorem preinc_throws_iff_ended_witness :
    ∃ it0 h1 it1 e,
      numeric_range.begin [range2 0 1] 0 = .ok it0 ∧ it0.range = some 0 ∧
      it0.preinc [range2 0 1] = (h1, .ok it1) ∧
      numeric_range.end_ h1 0 = .ok e ∧ it1.eq e = true ∧
      it1.preinc h1 =
        (h1, .error (Error.runtime_error "increment a past-the-end iterator.")) :=
  preinc_throws_iff_ended.2.2.2 [range2 0 1] 0 rfl

/-- C5: for an iterator pointing at a live range whose `current` is `v`, postfix
increment returns a snapshot that dereferences to `v`, and leaves the heap and
the iterator exactly as prefix increment does from the same state; afterwards the
iterator either equals `end()` or dereferences to the successor of `v` under the
policy of the range. -/
theorem postinc_snapshot (h : Heap) (it : iterator) (a : Nat) (r : numeric_range)
    (hit : it.range = some a) (ha : h[a]? = some r) :
    ∃ snap it1 h1 e,
      it.postinc h = (h1, .ok (snap, it1)) ∧
      snap.deref = r.current ∧
      it.preinc h = (h1, .ok it1) ∧
      numeric_range.end_ h1 a = .ok e ∧
      (it1.eq e = true ∨ it1.deref h1 = .ok (r.inc.apply r.current)) := by
  obtain ⟨p⟩ := it
  simp only at hit
  subst hit
  have hg := heap_get_set h a r { r with current := r.inc.apply r.current } ha
  have hpre := preinc_active h a r ha
  rw [begin_eq _ a _ hg] at hpre
  refine ⟨{ value := r.current }, _, _, { range := none }, ?_, rfl, hpre, rfl, ?_⟩
  · simp only [iterator.postinc, deref_active h a r ha, hpre]
  · by_cases hend : numeric_range.is_end { r with current := r.inc.apply r.current } = true
    · left; simp [hend, iterator.eq]
    · right
      simp only [hend, if_false]
      exact deref_active _ a _ hg

/-- The instance of C5 for an iterator at the start of `range(4, 9)`. -/
theorem postinc_snapshot_witness :
    ∃ snap it1 h1 e,
      iterator.postinc [range2 4 9] { range := some 0 } = (h1, .ok (snap, it1)) ∧
      snap.deref = (range2 4 9).current ∧
      iterator.preinc [range2 4 9] { range := some 0 } = (h1, .ok it1) ∧
      numeric_range.end_ h1 0 = .ok e ∧
      (it1.eq e = true ∨
        it1.deref h1 = .ok ((range2 4 9).inc.apply (range2 4 9).current)) :=
  postinc_snapshot [range2 4 9] { range := some 0 } 0 (range2 4 9) rfl rfl

/-! ## Equality of iterators -/

/-- C6, as stated, fails: with `range(0, 1)` at address 0 and the empty
`range(0, 0)` at address 1, `begin()` of the second range equals `end()` of the
first; and with `range(5, 6)` at address 1, its `begin()` advanced once equals
`end()` of the first range. -/
theorem other_range_iterator_ne_end_counterexample :
    (∃ it e,
      numeric_range.begin [range2 0 1, range2 0 0] 1 = .ok it ∧
      numeric_range.end_ [range2 0 1, range2 0 0] 0 = .ok e ∧
      it.ne e = false) ∧
    (∃ it h1 it1 e,
      numeric_range.begin [range2 0 1, range2 5 6] 1 = .ok it ∧
      it.preinc [range2 0 1, range2 5 6] = (h1, .ok it1) ∧
      numeric_range.end_ h1 0 = .ok e ∧
      it1.ne e = false) :=
  ⟨⟨{ range := none }, { range := none }, rfl, rfl, rfl⟩,
   ⟨{ range := some 1 }, [range2 0 1, range2 6 6], { range := none }, { range := none },
     rfl, rfl, rfl, rfl⟩⟩

/-- C6, amended: for two distinct live ranges `r1` and `r2`, an iterator that
points at `r2` differs from `r1.end()`; the iterator that `r2.begin()` returns
differs from `r1.end()` exactly when `r2` is not at its end; and an iterator of
`r2` advanced by prefix increment differs from `r1.end()` exactly when the advanced
`r2` is not at its end, `r1` being left as it was. -/
theorem other_range_iterator_ne_end_iff_active (h : Heap) (a1 a2 : Nat)
    (r1 r2 : numeric_range) (hne : a1 ≠ a2)
    (h1 : h[a1]? = some r1) (h2 : h[a2]? = some r2) :
    (∀ it e : iterator, it.range = some a2 → numeric_range.end_ h a1 = .ok e → it.ne e = true) ∧
    (∃ it e, numeric_range.begin h a2 = .ok it ∧ numeric_range.end_ h a1 = .ok e ∧
      (it.ne e = true ↔ r2.is_end = false)) ∧
    (∀ it : iterator, it.range = some a2 →
      ∃ hp it1 e, it.preinc h = (hp, .ok it1) ∧ hp[a1]? = some r1 ∧
        numeric_range.end_ hp a1 = .ok e ∧
        (it1.ne e = true ↔
          numeric_range.is_end { r2 with current := r2.inc.apply r2.current } = false)) := by
  refine ⟨?_, ?_, ?_⟩
  · intro it e hit he
    rw [end_eq] at he
    cases he
    simp [iterator.ne, iterator.eq, hit]
  · refine ⟨_, _, begin_eq h a2 r2 h2, end_eq h a1, ?_⟩
    cases hend : r2.is_end <;> simp [iterator.ne, iterator.eq]
  · intro it hit
    obtain ⟨p⟩ := it
    simp only at hit
    subst hit
    have hg := heap_get_set h a2 r2 { r2 with current := r2.inc.apply r2.current } h2
    have hpre := preinc_active h a2 r2 h2
    rw [begin_eq _ a2 _ hg] at hpre
    refine ⟨_, _, { range := none }, hpre, ?_, rfl, ?_⟩
    · rw [List.getElem?_set_ne (Ne.symm hne)]
      exact h1
    · cases hend : numeric_range.is_end { r2 with current := r2.inc.apply r2.current } <;>
        simp [iterator.ne, iterator.eq]

/-- The instance of the amended C6 for `range(0, 1)` at address 0 and `range(5, 7)`
at address 1. -/
theorem other_range_iterator_ne_end_iff_active_witness :
    (∀ it e : iterator, it.range = some 1 →
      numeric_range.end_ [range2 0 1, range2 5 7] 0 = .ok e → it.ne e = true) ∧
    (∃ it e, numeric_range.begin [range2 0 1, range2 5 7] 1 = .ok it ∧
      numeric_range.end_ [range2 0 1, range2 5 7] 0 = .ok e ∧
      (it.ne e = true ↔ (range2 5 7).is_end = false)) ∧
    (∀ it : iterator, it.range = some 1 →
      ∃ hp it1 e, it.preinc [range2 0 1, range2 5 7] = (hp, .ok it1) ∧
        hp[0]? = some (range2 0 1) ∧
        numeric_range.end_ hp 0 = .ok e ∧
        (it1.ne e = true ↔
          numeric_range.is_end
            { range2 5 7 with current := (range2 5 7).inc.apply (range2 5 7).current }
            = false)) :=
  other_range_iterator_ne_end_iff_active [range2 0 1, range2 5 7] 0 1 (range2 0 1)
    (range2 5 7) (by decide) rfl rfl

/-- C7: over any live range in any state, two calls of `begin()` on the same heap
return iterators that compare equal, both pointing at the range or both null;
`operator==` holds exactly when the two pointers are identical, and `operator!=`
is its negation. -/
theorem begin_twice_eq (h : Heap) (a : Nat) (r : numeric_range) (ha : h[a]? = some r) :
    (∃ it1 it2, numeric_range.begin h a = .ok it1 ∧ numeric_range.begin h a = .ok it2 ∧
      it1.eq it2 = true ∧ it1.ne it2 = false ∧
      ((it1.range = some a ∧ it2.range = some a) ∨
       (it1.range = none ∧ it2.range = none))) ∧
    (∀ x y : iterator, x.eq y = true ↔ x.range = y.range) ∧
    (∀ x y : iterator, x.ne y = !(x.eq y)) ∧
    (∀ x y : iterator, x.ne y = true ↔ x.range ≠ y.range) := by
  refine ⟨⟨_, _, begin_eq h a r ha, begin_eq h a r ha, ?_, ?_, ?_⟩, ?_, ?_, ?_⟩
  · simp [iterator.eq]
  · simp [iterator.ne, iterator.eq]
  · cases r.is_end <;> simp
  · intro x y; simp [iterator.eq]
  · intro x y; rfl
  · intro x y; simp [iterator.ne, iterator.eq]

/-- The instance of C7 for `range(3)` alone in the heap. -/
theorem begin_twice_eq_witness :
    (∃ it1 it2, numeric_range.begin [range1 3] 0 = .ok it1 ∧
      numeric_range.begin [range1 3] 0 = .ok it2 ∧
      it1.eq it2 = true ∧ it1.ne it2 = false ∧
      ((it1.range = some 0 ∧ it2.range = some 0) ∨
       (it1.range = none ∧ it2.range = none))) ∧
    (∀ x y : iterator, x.eq y = true ↔ x.range = y.range) ∧
    (∀ x y : iterator, x.ne y = !(x.eq y)) ∧
    (∀ x y : iterator, x.ne y = true ↔ x.range ≠ y.range) :=
  begin_twice_eq [range1 3] 0 (range1 3) rfl

/-! ## `begin` and empty ranges -/

/-- C8: for a live range in any state, `begin()` returns the null iterator, equal
to `end()`, if and only if the range is exhausted, that is its direction is
`increasing` and `current >= final`, or its direction is `decreasing` and
`current <= final`; otherwise it returns an iterator that points at the range and
dereferences to `current`. -/
theorem begin_ended_iff_exhausted (h : Heap) (a : Nat) (r : numeric_range)
    (ha : h[a]? = some r) :
    ∃ it e, numeric_range.begin h a = .ok it ∧ numeric_range.end_ h a = .ok e ∧
      (it.eq e = true ↔
        ((r.dir = direction.increasing ∧ r.current ≥ r.final) ∨
         (r.dir = direction.decreasing ∧ r.current ≤ r.final))) ∧
      (it.range = none ↔
        ((r.dir = direction.increasing ∧ r.current ≥ r.final) ∨
         (r.dir = direction.decreasing ∧ r.current ≤ r.final))) ∧
      (¬ ((r.dir = direction.increasing ∧ r.current ≥ r.final) ∨
          (r.dir = direction.decreasing ∧ r.current ≤ r.final)) →
        it.range = some a ∧ it.deref h = .ok r.current) := by
  have hex : r.is_end = true ↔
      ((r.dir = direction.increasing ∧ r.current ≥ r.final) ∨
       (r.dir = direction.decreasing ∧ r.current ≤ r.final)) := by
    obtain ⟨c, f, i, d⟩ := r
    cases d <;> simp [numeric_range.is_end]
  refine ⟨_, _, begin_eq h a r ha, end_eq h a, ?_, ?_, ?_⟩
  · rw [← hex]
    cases r.is_end <;> simp [iterator.eq]
  · rw [← hex]
    cases r.is_end <;> simp
  · intro hn
    rw [← hex] at hn
    have hf : r.is_end = false := by simpa using hn
    rw [hf]
    exact ⟨rfl, deref_active h a r ha⟩

/-- The instance of C8 for the descending range from 9 down to 3 by 2, alone in
the heap. -/
theorem begin_ended_iff_exhausted_witness :
    ∃ it e,
      numeric_range.begin
        [numeric_range.ctor4 9 3 (Increment.increment_by_traits (-2)) direction.decreasing]
        0 = .ok it ∧
      numeric_range.end_
        [numeric_range.ctor4 9 3 (Increment.increment_by_traits (-2)) direction.decreasing]
        0 = .ok e ∧
      (it.eq e = true ↔
        ((direction.decreasing = direction.increasing ∧ (9 : Int) ≥ 3) ∨
         (direction.decreasing = direction.decreasing ∧ (9 : Int) ≤ 3))) ∧
      (it.range = none ↔
        ((direction.decreasing = direction.increasing ∧ (9 : Int) ≥ 3) ∨
         (direction.decreasing = direction.decreasing ∧ (9 : Int) ≤ 3))) ∧
      (¬ ((direction.decreasing = direction.increasing ∧ (9 : Int) ≥ 3) ∨
          (direction.decreasing = direction.decreasing ∧ (9 : Int) ≤ 3)) →
        it.range = some 0 ∧
        it.deref
          [numeric_range.ctor4 9 3 (Increment.increment_by_traits (-2))
            direction.decreasing] = .ok 9) :=
  begin_ended_iff_exhausted
    [numeric_range.ctor4 9 3 (Increment.increment_by_traits (-2)) direction.decreasing]
    0 (numeric_range.ctor4 9 3 (Increment.increment_by_traits (-2)) direction.decreasing)
    rfl

/-- C9: for all `from >= to`, and so for `from = to`, the range `range(from, to)`,
which the factory returns without any error, is empty: stored at any address, its
`begin()` equals its `end()` at once, and the idiomatic loop ends without an error,
having yielded nothing and changed nothing. -/
theorem range_from_ge_to_empty (from_ to_ : Int) (hge : from_ ≥ to_) (h : Heap) (a : Nat)
    (ha : h[a]? = some (range2 from_ to_)) :
    (∃ it e, numeric_range.begin h a = .ok it ∧ numeric_range.end_ h a = .ok e ∧
      it.eq e = true) ∧
    (∀ fuel : Nat, 0 < fuel →
      for_each fuel h a = some { heap := h, yielded := [], raised := none }) := by
  have hend : (range2 from_ to_).is_end = true := by
    simp only [range2, numeric_range.ctor2, numeric_range.is_end, decide_eq_true_eq]
    exact hge
  refine ⟨⟨_, _, begin_eq h a _ ha, end_eq h a, ?_⟩, fun fuel hf => ?_⟩
  · simp [hend, iterator.eq]
  · exact for_each_exhausted h a _ fuel ha hend hf

/-- The instance of C9 for `range(5, 5)` alone in the heap. -/
theorem range_from_ge_to_empty_witness :
    (∃ it e, numeric_range.begin [range2 5 5] 0 = .ok it ∧
      numeric_range.end_ [range2 5 5] 0 = .ok e ∧ it.eq e = true) ∧
    (∀ fuel : Nat, 0 < fuel →
      for_each fuel [range2 5 5] 0 =
        some { heap := [range2 5 5], yielded := [], raised := none }) :=
  range_from_ge_to_empty 5 5 (by decide) [range2 5 5] 0 rfl

/-- C10: for every `a` and every non-zero `delta`, of either sign, the factory
returns `range(a, a, delta)`, and this range is empty: stored at any address, its
`begin()` equals its `end()`, and the idiomatic loop ends without an error, having
yielded nothing and changed nothing. -/
theorem range_degenerate_step_empty (a delta : Int) (hd : delta ≠ 0) :
    ∃ r, range3 a a delta = .ok r ∧
      ∀ (h : Heap) (p : Nat), h[p]? = some r →
        (∃ it e, numeric_range.begin h p = .ok it ∧ numeric_range.end_ h p = .ok e ∧
          it.eq e = true) ∧
        (∀ fuel : Nat, 0 < fuel →
          for_each fuel h p = some { heap := h, yielded := [], raised := none }) := by
  have hok : range3 a a delta = .ok (numeric_range.ctor4 a a
      (Increment.increment_by_traits delta)
      (if delta > 0 then direction.increasing else direction.decreasing)) := by
    simp only [range3, hd, if_false]
  have hend : (numeric_range.ctor4 a a (Increment.increment_by_traits delta)
      (if delta > 0 then direction.increasing else direction.decreasing)).is_end = true := by
    by_cases hp : delta > 0 <;> simp [numeric_range.ctor4, numeric_range.is_end, hp]
  refine ⟨_, hok, fun h p ha => ⟨⟨_, _, begin_eq h p _ ha, end_eq h p, ?_⟩, fun fuel hf => ?_⟩⟩
  · simp [hend, iterator.eq]
  · exact for_each_exhausted h p _ fuel ha hend hf

/-- The instance of C10 at `range(4, 4, -3)`. -/
theorem range_degenerate_step_empty_witness :
    ∃ r, range3 4 4 (-3) = .ok r ∧
      ∀ (h : Heap) (p : Nat), h[p]? = some r →
        (∃ it e, numeric_range.begin h p = .ok it ∧ numeric_range.end_ h p = .ok e ∧
          it.eq e = true) ∧
        (∀ fuel : Nat, 0 < fuel →
          for_each fuel h p = some { heap := h, yielded := [], raised := none }) :=
  range_degenerate_step_empty 4 (-3) (by decide)

/-! ## Infallible operations, observation and frame -/

/-- C11: the factories `range(to)` and `range(from, to)` are total and return the
range they were asked for; over a live range `begin()` and `end()` return an
iterator; `operator==` and `operator!=` return a boolean; and on an iterator that
points at a live range dereference, prefix increment and postfix increment each
return a value, never an error. -/
theorem active_operations_succeed (h : Heap) (a : Nat) (r : numeric_range)
    (ha : h[a]? = some r) (it : iterator) (hit : it.range = some a) :
    (∀ from_ to_ : Int, (range2 from_ to_).current = from_ ∧ (range2 from_ to_).final = to_ ∧
      (range1 to_).current = 0 ∧ (range1 to_).final = to_) ∧
    (∃ b, numeric_range.begin h a = .ok b) ∧
    (∃ e, numeric_range.end_ h a = .ok e) ∧
    (∀ rhs : iterator, (it.eq rhs = true ∨ it.eq rhs = false) ∧ it.ne rhs = !(it.eq rhs)) ∧
    (∃ v, it.deref h = .ok v) ∧
    (∃ h1 it1, it.preinc h = (h1, .ok it1)) ∧
    (∃ h1 snap it1, it.postinc h = (h1, .ok (snap, it1))) := by
  obtain ⟨p⟩ := it
  simp only at hit
  subst hit
  have hg := heap_get_set h a r { r with current := r.inc.apply r.current } ha
  have hpre := preinc_active h a r ha
  rw [begin_eq _ a _ hg] at hpre
  have hpost : iterator.postinc h { range := some a } =
      (h.set a { r with current := r.inc.apply r.current },
        .ok ({ value := r.current },
          { range := if numeric_range.is_end { r with current := r.inc.apply r.current }
                     then none else some a })) := by
    simp only [iterator.postinc, deref_active h a r ha, hpre]
  refine ⟨fun _ _ => ⟨rfl, rfl, rfl, rfl⟩, ⟨_, begin_eq h a r ha⟩, ⟨_, end_eq h a⟩,
    fun rhs => ⟨?_, rfl⟩, ⟨_, deref_active h a r ha⟩, ⟨_, _, hpre⟩, ⟨_, _, _, hpost⟩⟩
  cases iterator.eq { range := some a } rhs <;> simp

/-- The instance of C11 for an iterator at the start of `range(2, 5)`. -/
theorem active_operations_succeed_witness :
    (∀ from_ to_ : Int, (range2 from_ to_).current = from_ ∧ (range2 from_ to_).final = to_ ∧
      (range1 to_).current = 0 ∧ (range1 to_).final = to_) ∧
    (∃ b, numeric_range.begin [range2 2 5] 0 = .ok b) ∧
    (∃ e, numeric_range.end_ [range2 2 5] 0 = .ok e) ∧
    (∀ rhs : iterator,
      (iterator.eq { range := some 0 } rhs = true ∨
        iterator.eq { range := some 0 } rhs = false) ∧
      iterator.ne { range := some 0 } rhs = !(iterator.eq { range := some 0 } rhs)) ∧
    (∃ v, iterator.deref [range2 2 5] { range := some 0 } = .ok v) ∧
    (∃ h1 it1, iterator.preinc [range2 2 5] { range := some 0 } = (h1, .ok it1)) ∧
    (∃ h1 snap it1,
      iterator.postinc [range2 2 5] { range := some 0 } = (h1, .ok (snap, it1))) :=
  active_operations_succeed [range2 2 5] 0 (range2 2 5) rfl { range := some 0 } rfl

/-- C12: observation changes nothing.  Run as transitions over a live range `r` at
address `a`, `begin()`, `end()`, dereference of an iterator that points at `r`,
`operator==` and `operator!=` all return and leave the store of ranges exactly as
it was, so that `r` keeps its `current`, `final`, direction and policy; whenever
the constructor or a dereference returns at all, on any store, the store is the
one it started from.  Hence the exhausted test `begin() == end()` leaves the store
as it was and has the value of `is_end`, and evaluated again on the store it left
it gives the same result; its value is the same for any range with the same
`current`, `final` and direction, whatever its policy.  And `end()` returns the
iterator with the null pointer on every store and for every address. -/
theorem observers_leave_range_unchanged (h : Heap) (a : Nat) (r : numeric_range)
    (ha : h[a]? = some r) :
    (∃ s, begin_st h a = .ok s ∧ s.heap = h ∧ s.heap[a]? = some r ∧
      numeric_range.begin h a = .ok s.self) ∧
    (∃ s, end_st h a = .ok s ∧ s.heap = h ∧ s.heap[a]? = some r ∧ s.self.range = none) ∧
    (∀ (h0 : Heap) (a0 : Nat),
      end_st h0 a0 = .ok { heap := h0, self := { range := none } }) ∧
    (∀ it : iterator, it.range = some a →
      ∃ s1 v, deref_st { heap := h, self := it } = .ok (s1, v) ∧ s1.heap = h ∧
        s1.self = it ∧ s1.heap[a]? = some r ∧ v = r.current ∧ it.deref h = .ok v) ∧
    (∀ (s : IterState) (rhs : iterator),
      (eq_st s rhs).1 = s ∧ (ne_st s rhs).1 = s ∧
      (eq_st s rhs).2 = s.self.eq rhs ∧ (ne_st s rhs).2 = s.self.ne rhs) ∧
    (∀ (h0 : Heap) (p : Option Nat) (s : IterState), ctor_st h0 p = .ok s → s.heap = h0) ∧
    (∀ (s s1 : IterState) (v : Int), deref_st s = .ok (s1, v) → s1 = s) ∧
    (exhausted_test h a = .ok (h, r.is_end) ∧
      ∀ (h1 : Heap) (b1 : Bool), exhausted_test h a = .ok (h1, b1) →
        exhausted_test h1 a = .ok (h1, b1)) ∧
    (∀ (h2 : Heap) (a2 : Nat) (r2 : numeric_range), h2[a2]? = some r2 →
      r2.current = r.current → r2.final = r.final → r2.dir = r.dir →
      exhausted_test h2 a2 = .ok (h2, r.is_end)) := by
  have hbegin : ∀ (h2 : Heap) (a2 : Nat) (r2 : numeric_range), h2[a2]? = some r2 →
      begin_st h2 a2 =
        .ok { heap := h2, self := { range := if r2.is_end then none else some a2 } } := by
    intro h2 a2 r2 h2a
    simp only [begin_st, ctor_st, check_done_st, h2a]
    cases r2.is_end <;> rfl
  have hend : ∀ (h0 : Heap) (a0 : Nat),
      end_st h0 a0 = .ok { heap := h0, self := { range := none } } := fun _ _ => rfl
  have htest : ∀ (h2 : Heap) (a2 : Nat) (r2 : numeric_range), h2[a2]? = some r2 →
      exhausted_test h2 a2 = .ok (h2, r2.is_end) := by
    intro h2 a2 r2 h2a
    simp only [exhausted_test, hbegin h2 a2 r2 h2a, hend, eq_st]
    cases r2.is_end <;> rfl
  have hctor : ∀ (h0 : Heap) (p : Option Nat) (s : IterState),
      ctor_st h0 p = .ok s → s.heap = h0 := by
    intro h0 p s hs
    cases p with
    | none =>
      simp only [ctor_st, check_done_st, Except.ok.injEq] at hs
      rw [← hs]
    | some b =>
      cases hb : h0[b]? with
      | none => simp [ctor_st, check_done_st, hb] at hs
      | some rb =>
        cases hrb : rb.is_end <;>
          simp only [ctor_st, check_done_st, hb, hrb, if_true, if_false,
            Bool.false_eq_true, Except.ok.injEq] at hs <;>
          rw [← hs]
  refine ⟨⟨_, hbegin h a r ha, rfl, ha, begin_eq h a r ha⟩, ⟨_, hend h a, rfl, ha, rfl⟩,
    hend, ?_, ?_, hctor, ?_, ⟨htest h a r ha, ?_⟩, ?_⟩
  · intro it hit
    refine ⟨{ heap := h, self := it }, r.current, ?_, rfl, rfl, ha, rfl, ?_⟩
    · simp only [deref_st, hit, ha]
    · simp only [iterator.deref, hit, ha]
  · intro s rhs
    exact ⟨rfl, rfl, rfl, rfl⟩
  · intro s s1 v hs
    cases hp : s.self.range with
    | none => simp [deref_st, hp] at hs
    | some b =>
      cases hb : s.heap[b]? with
      | none => simp [deref_st, hp, hb] at hs
      | some rb =>
        simp only [deref_st, hp, hb, Except.ok.injEq, Prod.mk.injEq] at hs
        exact hs.1.symm
  · intro h1 b1 hrun
    rw [htest h a r ha] at hrun
    simp only [Except.ok.injEq, Prod.mk.injEq] at hrun
    obtain ⟨rfl, rfl⟩ := hrun
    exact htest h a r ha
  · intro h2 a2 r2 h2a hc hf hd
    rw [htest h2 a2 r2 h2a]
    simp only [numeric_range.is_end, hc, hf, hd]

/-- The instance of C12 for `range(0, 4)` alone in the heap. -/
theorem observers_leave_range_unchanged_witness :
    (∃ s, begin_st [range2 0 4] 0 = .ok s ∧ s.heap = [range2 0 4] ∧
      s.heap[0]? = some (range2 0 4) ∧
      numeric_range.begin [range2 0 4] 0 = .ok s.self) ∧
    (∃ s, end_st [range2 0 4] 0 = .ok s ∧ s.heap = [range2 0 4] ∧
      s.heap[0]? = some (range2 0 4) ∧ s.self.range = none) ∧
    (∀ (h0 : Heap) (a0 : Nat),
      end_st h0 a0 = .ok { heap := h0, self := { range := none } }) ∧
    (∀ it : iterator, it.range = some 0 →
      ∃ s1 v, deref_st { heap := [range2 0 4], self := it } = .ok (s1, v) ∧
        s1.heap = [range2 0 4] ∧ s1.self = it ∧ s1.heap[0]? = some (range2 0 4) ∧
        v = (range2 0 4).current ∧ it.deref [range2 0 4] = .ok v) ∧
    (∀ (s : IterState) (rhs : iterator),
      (eq_st s rhs).1 = s ∧ (ne_st s rhs).1 = s ∧
      (eq_st s rhs).2 = s.self.eq rhs ∧ (ne_st s rhs).2 = s.self.ne rhs) ∧
    (∀ (h0 : Heap) (p : Option Nat) (s : IterState), ctor_st h0 p = .ok s → s.heap = h0) ∧
    (∀ (s s1 : IterState) (v : Int), deref_st s = .ok (s1, v) → s1 = s) ∧
    (exhausted_test [range2 0 4] 0 = .ok ([range2 0 4], (range2 0 4).is_end) ∧
      ∀ (h1 : Heap) (b1 : Bool), exhausted_test [range2 0 4] 0 = .ok (h1, b1) →
        exhausted_test h1 0 = .ok (h1, b1)) ∧
    (∀ (h2 : Heap) (a2 : Nat) (r2 : numeric_range), h2[a2]? = some r2 →
      r2.current = (range2 0 4).current → r2.final = (range2 0 4).final →
      r2.dir = (range2 0 4).dir →
      exhausted_test h2 a2 = .ok (h2, (range2 0 4).is_end)) :=
  observers_leave_range_unchanged [range2 0 4] 0 (range2 0 4) rfl

/-! ## Advancing an iterator that points at a live range -/

theorem preinc_active_ok (h : Heap) (a : Nat) (r : numeric_range) (ha : h[a]? = some r) :
    iterator.preinc h { range := some a } =
      (h.set a { r with current := r.inc.apply r.current },
        .ok { range := if numeric_range.is_end { r with current := r.inc.apply r.current }
                       then none else some a }) := by
  rw [preinc_active h a r ha, begin_eq _ a _ (heap_get_set h a r _ ha)]

theorem postinc_active_ok (h : Heap) (a : Nat) (r : numeric_range) (ha : h[a]? = some r) :
    iterator.postinc h { range := some a } =
      (h.set a { r with current := r.inc.apply r.current },
        .ok ({ value := r.current },
          { range := if numeric_range.is_end { r with current := r.inc.apply r.current }
                     then none else some a })) := by
  simp only [iterator.postinc, deref_active h a r ha, preinc_active_ok h a r ha]

theorem is_end_false_iff (r : numeric_range) :
    r.is_end = false ↔
      ((r.dir = direction.increasing ∧ r.current < r.final) ∨
       (r.dir = direction.decreasing ∧ r.current > r.final)) := by
  obtain ⟨c, f, i, d⟩ := r
  cases d <;> simp [numeric_range.is_end]

/-- Driving an iterator that is null exactly when its range is exhausted leaves
such an iterator and such a heap, with `final`, direction and policy of the range
untouched, whether or not an increment failed on the way. -/
theorem drive_invariant (a : Nat) (r0 : numeric_range) :
    ∀ (ops : List IterOp) (h : Heap) (it : iterator),
      (∃ r, h[a]? = some r ∧ r.final = r0.final ∧ r.dir = r0.dir ∧ r.inc = r0.inc ∧
        it.range = if r.is_end then none else some a) →
      ∃ r1, (drive ops h it).1[a]? = some r1 ∧ r1.final = r0.final ∧ r1.dir = r0.dir ∧
        r1.inc = r0.inc ∧
        (drive ops h it).2.1.range = if r1.is_end then none else some a := by
  intro ops
  induction ops with
  | nil => intro h it hinv; exact hinv
  | cons op ops ih =>
    intro h it hinv
    obtain ⟨r, ha, hf, hd, hi, hit⟩ := hinv
    obtain ⟨p⟩ := it
    simp only at hit
    subst hit
    cases hend : r.is_end with
    | true =>
      cases op with
      | preinc =>
        have hdr : drive (IterOp.preinc :: ops) h { range := none } =
            (h, { range := none },
              some (Error.runtime_error "increment a past-the-end iterator.")) := rfl
        simp only [if_true, hdr]
        exact ⟨r, ha, hf, hd, hi, by simp [hend]⟩
      | postinc =>
        have hdr : drive (IterOp.postinc :: ops) h { range := none } =
            (h, { range := none }, some Error.undefined_behavior) := rfl
        simp only [if_true, hdr]
        exact ⟨r, ha, hf, hd, hi, by simp [hend]⟩
    | false =>
      have hnext := ih (h.set a { r with current := r.inc.apply r.current })
        { range := if numeric_range.is_end { r with current := r.inc.apply r.current }
                   then none else some a }
        ⟨_, heap_get_set h a r _ ha, hf, hd, hi, rfl⟩
      cases op with
      | preinc =>
        simp only [Bool.false_eq_true, if_false, drive, preinc_active_ok h a r ha]
        exact hnext
      | postinc =>
        simp only [Bool.false_eq_true, if_false, drive, postinc_active_ok h a r ha]
        exact hnext

/-- Every value the loop yields, when run from an iterator that is null exactly
when its range is exhausted, lies strictly before `final` in the direction of the
range. -/
theorem loop_yielded_before (a : Nat) (r0 : numeric_range) :
    ∀ (fuel : Nat) (h : Heap) (r : numeric_range) (t : Trace),
      h[a]? = some r → r.final = r0.final → r.dir = r0.dir →
      loop a fuel h { range := if r.is_end then none else some a } = some t →
      ∀ v ∈ t.yielded,
        ((r0.dir = direction.increasing ∧ v < r0.final) ∨
         (r0.dir = direction.decreasing ∧ v > r0.final)) := by
  intro fuel
  induction fuel with
  | zero => intro h r t _ _ _ hl; simp [loop] at hl
  | succ f ih =>
    intro h r t ha hf hd hl v hv
    cases hend : r.is_end with
    | true =>
      rw [hend] at hl
      simp only [if_true, loop_ended, Option.some.injEq] at hl
      subst hl
      simp at hv
    | false =>
      rw [hend] at hl
      simp only [Bool.false_eq_true, if_false] at hl
      rw [loop_active a f h r ha] at hl
      cases hrec : loop a f (h.set a { r with current := r.inc.apply r.current })
          { range := if numeric_range.is_end { r with current := r.inc.apply r.current }
                     then none else some a } with
      | none => rw [hrec] at hl; simp at hl
      | some t1 =>
        rw [hrec] at hl
        simp only [Option.map_some', Option.some.injEq] at hl
        subst hl
        simp only [List.mem_cons] at hv
        rcases hv with hv | hv
        · subst hv
          have := (is_end_false_iff r).mp hend
          rw [hf, hd] at this
          exact this
        · exact ih _ { r with current := r.inc.apply r.current } t1
            (heap_get_set h a r _ ha) hf hd hrec v hv

/-- C14: take any live range, in particular one a factory produced, and the
iterator its `begin()` returns, and apply to it any sequence of prefix and postfix
increments.  Afterwards the iterator points at the range if and only if the range
is not exhausted, and is null otherwise; when it is not null its dereference is
`current`, which lies strictly before `final` in the direction of the range.
Hence every value the idiomatic loop yields lies strictly before `final` in that
direction. -/
theorem driven_iterator_active_iff (h : Heap) (a : Nat) (r0 : numeric_range)
    (ha : h[a]? = some r0) (it0 : iterator) (hb : numeric_range.begin h a = .ok it0)
    (ops : List IterOp) :
    (∃ r1, (drive ops h it0).1[a]? = some r1 ∧ r1.final = r0.final ∧ r1.dir = r0.dir ∧
      ((drive ops h it0).2.1.range = some a ↔ r1.is_end = false) ∧
      ((drive ops h it0).2.1.range ≠ none ↔ r1.is_end = false) ∧
      ((drive ops h it0).2.1.range ≠ none →
        (drive ops h it0).2.1.deref (drive ops h it0).1 = .ok r1.current ∧
        ((r0.dir = direction.increasing ∧ r1.current < r0.final) ∨
         (r0.dir = direction.decreasing ∧ r1.current > r0.final)))) ∧
    (∀ (fuel : Nat) (t : Trace), for_each fuel h a = some t →
      ∀ v ∈ t.yielded,
        ((r0.dir = direction.increasing ∧ v < r0.final) ∨
         (r0.dir = direction.decreasing ∧ v > r0.final))) := by
  rw [begin_eq h a r0 ha] at hb
  cases hb
  constructor
  · obtain ⟨r1, h1, hf, hd, _, hit⟩ := drive_invariant a r0 ops h
      { range := if r0.is_end then none else some a } ⟨r0, ha, rfl, rfl, rfl, rfl⟩
    refine ⟨r1, h1, hf, hd, ?_, ?_, ?_⟩
    · rw [hit]; cases r1.is_end <;> simp
    · rw [hit]; cases r1.is_end <;> simp
    · intro hne
      have hfalse : r1.is_end = false := by
        cases hr : r1.is_end with
        | false => rfl
        | true => rw [hit, hr] at hne; simp at hne
      have heta : (drive ops h { range := if r0.is_end then none else some a }).2.1 =
          { range := (drive ops h
              { range := if r0.is_end then none else some a }).2.1.range } := rfl
      have hrange : (drive ops h
          { range := if r0.is_end then none else some a }).2.1 = { range := some a } := by
        rw [heta, hit, hfalse]
        simp
      refine ⟨?_, ?_⟩
      · rw [hrange]
        exact deref_active _ a r1 h1
      · have := (is_end_false_iff r1).mp hfalse
        rw [hf, hd] at this
        exact this
  · intro fuel t hl v hv
    rw [for_each, begin_eq h a r0 ha] at hl
    exact loop_yielded_before a r0 fuel h r0 t ha rfl rfl hl v hv

/-- The instance of C14 for `range(8, 2, -2)`, alone in the heap, driven by a
prefix and then a postfix increment, and run through the loop with four units of
fuel, which yields 8, 6, 4. -/
theorem driven_iterator_active_iff_witness :
    (∃ r1,
      (drive [IterOp.preinc, IterOp.postinc]
        [numeric_range.ctor4 8 2 (Increment.increment_by_traits (-2)) direction.decreasing]
        { range := some 0 }).1[0]? = some r1 ∧
      r1.final = 2 ∧ r1.dir = direction.decreasing ∧
      ((drive [IterOp.preinc, IterOp.postinc]
        [numeric_range.ctor4 8 2 (Increment.increment_by_traits (-2)) direction.decreasing]
        { range := some 0 }).2.1.range = some 0 ↔ r1.is_end = false) ∧
      ((drive [IterOp.preinc, IterOp.postinc]
        [numeric_range.ctor4 8 2 (Increment.increment_by_traits (-2)) direction.decreasing]
        { range := some 0 }).2.1.range ≠ none ↔ r1.is_end = false) ∧
      ((drive [IterOp.preinc, IterOp.postinc]
        [numeric_range.ctor4 8 2 (Increment.increment_by_traits (-2)) direction.decreasing]
        { range := some 0 }).2.1.range ≠ none →
        (drive [IterOp.preinc, IterOp.postinc]
          [numeric_range.ctor4 8 2 (Increment.increment_by_traits (-2))
            direction.decreasing]
          { range := some 0 }).2.1.deref
          (drive [IterOp.preinc, IterOp.postinc]
            [numeric_range.ctor4 8 2 (Increment.increment_by_traits (-2))
              direction.decreasing]
            { range := some 0 }).1 = .ok r1.current ∧
        ((direction.decreasing = direction.increasing ∧ r1.current < 2) ∨
         (direction.decreasing = direction.decreasing ∧ r1.current > 2)))) ∧
    (∀ v ∈ ([8, 6, 4] : List Int),
        ((direction.decreasing = direction.increasing ∧ v < 2) ∨
         (direction.decreasing = direction.decreasing ∧ v > 2))) :=
  ⟨(driven_iterator_active_iff
      [numeric_range.ctor4 8 2 (Increment.increment_by_traits (-2)) direction.decreasing]
      0 (numeric_range.ctor4 8 2 (Increment.increment_by_traits (-2)) direction.decreasing)
      rfl { range := some 0 } rfl [IterOp.preinc, IterOp.postinc]).1,
   (driven_iterator_active_iff
      [numeric_range.ctor4 8 2 (Increment.increment_by_traits (-2)) direction.decreasing]
      0 (numeric_range.ctor4 8 2 (Increment.increment_by_traits (-2)) direction.decreasing)
      rfl { range := some 0 } rfl []).2 4
      { heap := [numeric_range.ctor4 2 2 (Increment.increment_by_traits (-2))
                  direction.decreasing],
        yielded := [8, 6, 4], raised := none } rfl⟩

/-- C15: two iterators that point at the same live range share its position: when
prefix increment of the first leaves the range not exhausted, the advanced first
iterator and the untouched second one both dereference to the advanced `current`,
and they still compare equal. -/
theorem copies_share_position (h : Heap) (p : Nat) (r : numeric_range)
    (ha : h[p]? = some r) (x y : iterator)
    (hx : x.range = some p) (hy : y.range = some p)
    (hnot : numeric_range.is_end { r with current := r.inc.apply r.current } = false) :
    ∃ h1 x1, x.preinc h = (h1, .ok x1) ∧
      x1.deref h1 = .ok (r.inc.apply r.current) ∧
      y.deref h1 = .ok (r.inc.apply r.current) ∧
      x.eq y = true ∧ x1.eq y = true ∧ x1.ne y = false := by
  obtain ⟨px⟩ := x
  obtain ⟨py⟩ := y
  simp only at hx hy
  subst hx
  subst hy
  have hg := heap_get_set h p r { r with current := r.inc.apply r.current } ha
  have hpre := preinc_active_ok h p r ha
  rw [hnot] at hpre
  simp only [Bool.false_eq_true, if_false] at hpre
  exact ⟨_, _, hpre, deref_active _ p _ hg, deref_active _ p _ hg,
    by simp [iterator.eq], by simp [iterator.eq], by simp [iterator.ne, iterator.eq]⟩

/-- The instance of C15 for two iterators at the start of `range(0, 5)`. -/
theorem copies_share_position_witness :
    ∃ h1 x1, iterator.preinc [range2 0 5] { range := some 0 } = (h1, .ok x1) ∧
      x1.deref h1 = .ok ((range2 0 5).inc.apply (range2 0 5).current) ∧
      iterator.deref h1 { range := some 0 } =
        .ok ((range2 0 5).inc.apply (range2 0 5).current) ∧
      iterator.eq { range := some 0 } { range := some 0 } = true ∧
      x1.eq { range := some 0 } = true ∧ x1.ne { range := some 0 } = false :=
  copies_share_position [range2 0 5] 0 (range2 0 5) rfl { range := some 0 }
    { range := some 0 } rfl rfl (by decide)

/-! ## Termination and the number of increments -/

/-- Prefix increments over a range whose policy adds `d`: as long as none of the
first `k` successors is at the end, `k` increments succeed and leave `current` at
the `k`-th successor, with the iterator null exactly if that one is at the end. -/
theorem drive_preinc_progression (a : Nat) (d : Int) :
    ∀ (k : Nat) (h : Heap) (r : numeric_range),
      h[a]? = some r →
      (∀ x, r.inc.apply x = x + d) →
      (∀ j : Nat, j < k →
        numeric_range.is_end { r with current := r.current + j * d } = false) →
      drive (List.replicate k IterOp.preinc) h
          { range := if r.is_end then none else some a } =
        (h.set a { r with current := r.current + k * d },
          { range := if numeric_range.is_end { r with current := r.current + k * d }
                     then none else some a },
          none) := by
  intro k
  induction k with
  | zero =>
    intro h r ha _ _
    have hr : { r with current := r.current + ((0 : Nat) : Int) * d } = r := by simp
    rw [hr, heap_set_same h a r ha]
    rfl
  | succ k ih =>
    intro h r ha hinc hlt
    have h0 : r.is_end = false := by
      have := hlt 0 (Nat.succ_pos k)
      simpa using this
    have hcur : r.inc.apply r.current = r.current + d := hinc r.current
    have e : ∀ j : Nat, r.current + d + (j : Int) * d = r.current + ((j + 1 : Nat) : Int) * d := by
      intro j; push_cast; ring
    have key := ih (h.set a { r with current := r.current + d })
      { r with current := r.current + d } (heap_get_set h a r _ ha) hinc
      (by
        intro j hj
        have := hlt (j + 1) (Nat.succ_lt_succ hj)
        simpa [e j] using this)
    rw [h0]
    simp only [Bool.false_eq_true, if_false, List.replicate_succ, drive,
      preinc_active_ok h a r ha, hcur]
    rw [key]
    simp only [List.set_set, e k]

/-- For a live range whose policy adds `d` and of which exactly the first `n`
successors are not at the end: fewer than `n` prefix increments from `begin()`
leave an iterator different from `end()`, `n` of them leave one equal to `end()`,
and the idiomatic loop ends after yielding `n` values. -/
theorem reaches_end_after (a : Nat) (d : Int) (n : Nat) (h : Heap) (r : numeric_range)
    (ha : h[a]? = some r) (hinc : ∀ x, r.inc.apply x = x + d)
    (hn : ∀ k : Nat, k < n ↔
      numeric_range.is_end { r with current := r.current + k * d } = false) :
    ∃ it0, numeric_range.begin h a = .ok it0 ∧
      (∀ k : Nat, k < n → ∃ hk itk e,
        drive (List.replicate k IterOp.preinc) h it0 = (hk, itk, none) ∧
        numeric_range.end_ hk a = .ok e ∧ itk.ne e = true) ∧
      (∃ hn itn e,
        drive (List.replicate n IterOp.preinc) h it0 = (hn, itn, none) ∧
        numeric_range.end_ hn a = .ok e ∧ itn.eq e = true) ∧
      (∀ fuel : Nat, n < fuel →
        ∃ t, for_each fuel h a = some t ∧ t.raised = none ∧ t.yielded.length = n) := by
  have hlast : numeric_range.is_end { r with current := r.current + n * d } = true := by
    cases hc : numeric_range.is_end { r with current := r.current + n * d } with
    | true => rfl
    | false => exact absurd ((hn n).mpr hc) (lt_irrefl n)
  refine ⟨_, begin_eq h a r ha, ?_, ?_, ?_⟩
  · intro k hk
    refine ⟨_, _, { range := none },
      drive_preinc_progression a d k h r ha hinc (fun j hj => (hn j).mp (lt_trans hj hk)),
      rfl, ?_⟩
    rw [(hn k).mp hk]
    simp [iterator.ne, iterator.eq]
  · refine ⟨_, _, { range := none },
      drive_preinc_progression a d n h r ha hinc (fun j hj => (hn j).mp hj), rfl, ?_⟩
    rw [hlast]
    simp [iterator.eq]
  · intro fuel hf
    refine ⟨_, for_each_progression a d n h r fuel ha hinc (fun k hk => (hn k).mp hk)
      hlast hf, rfl, ?_⟩
    simp

theorem lt_ceil_toNat_pos (x d : Int) (hd : 0 < d) (k : Nat) :
    k < (⌈((x : Int) : ℚ) / (d : ℚ)⌉).toNat ↔ (k : Int) * d < x := by
  have hdq : (0 : ℚ) < (d : ℚ) := by exact_mod_cast hd
  rw [Int.lt_toNat, Int.lt_ceil, lt_div_iff₀ hdq]
  norm_cast

theorem lt_ceil_toNat_neg (x d : Int) (hd : d < 0) (k : Nat) :
    k < (⌈((x : Int) : ℚ) / (d : ℚ)⌉).toNat ↔ x < (k : Int) * d := by
  have hdq : (d : ℚ) < 0 := by exact_mod_cast hd
  rw [Int.lt_toNat, Int.lt_ceil, lt_div_iff_of_neg hdq]
  norm_cast

/-- C16: over the unbounded integers, for all `from`, `to` and non-zero `delta`,
with `n` the ceiling of `(to - from) / delta` when that is positive and `0`
otherwise, the iterator that `begin()` of `range(from, to, delta)` returns differs
from `end()` after fewer than `n` prefix increments and equals `end()` after
exactly `n` of them, and the idiomatic loop ends, after `n` values, once it has
more than `n` units of fuel; this holds for descending ranges as well.  The same
holds for `range(from, to)` with `n = max(0, to - from)`. -/
theorem range_terminates_after_ceil :
    (∀ (from_ to_ delta : Int) (r : numeric_range) (h : Heap) (a : Nat),
      delta ≠ 0 → range3 from_ to_ delta = .ok r → h[a]? = some r →
      ∃ it0, numeric_range.begin h a = .ok it0 ∧
        (∀ k : Nat, k < (⌈((to_ - from_ : Int) : ℚ) / ((delta : Int) : ℚ)⌉).toNat →
          ∃ hk itk e,
            drive (List.replicate k IterOp.preinc) h it0 = (hk, itk, none) ∧
            numeric_range.end_ hk a = .ok e ∧ itk.ne e = true) ∧
        (∃ hn itn e,
          drive (List.replicate (⌈((to_ - from_ : Int) : ℚ) / ((delta : Int) : ℚ)⌉).toNat
            IterOp.preinc) h it0 = (hn, itn, none) ∧
          numeric_range.end_ hn a = .ok e ∧ itn.eq e = true) ∧
        (∀ fuel : Nat, (⌈((to_ - from_ : Int) : ℚ) / ((delta : Int) : ℚ)⌉).toNat < fuel →
          ∃ t, for_each fuel h a = some t ∧ t.raised = none ∧
            t.yielded.length = (⌈((to_ - from_ : Int) : ℚ) / ((delta : Int) : ℚ)⌉).toNat)) ∧
    (∀ (from_ to_ : Int) (h : Heap) (a : Nat), h[a]? = some (range2 from_ to_) →
      ∃ it0, numeric_range.begin h a = .ok it0 ∧
        (∀ k : Nat, k < (max 0 (to_ - from_)).toNat →
          ∃ hk itk e,
            drive (List.replicate k IterOp.preinc) h it0 = (hk, itk, none) ∧
            numeric_range.end_ hk a = .ok e ∧ itk.ne e = true) ∧
        (∃ hn itn e,
          drive (List.replicate (max 0 (to_ - from_)).toNat IterOp.preinc) h it0 =
            (hn, itn, none) ∧
          numeric_range.end_ hn a = .ok e ∧ itn.eq e = true) ∧
        (∀ fuel : Nat, (max 0 (to_ - from_)).toNat < fuel →
          ∃ t, for_each fuel h a = some t ∧ t.raised = none ∧
            t.yielded.length = (max 0 (to_ - from_)).toNat)) := by
  constructor
  · intro from_ to_ delta r h a hd hr ha
    simp only [range3, hd, if_false, Except.ok.injEq] at hr
    subst hr
    refine reaches_end_after a delta _ h _ ha (fun x => rfl) (fun k => ?_)
    rcases lt_or_gt_of_ne hd with hneg | hpos
    · have hnp : ¬ (delta > 0) := by omega
      rw [lt_ceil_toNat_neg (to_ - from_) delta hneg k]
      simp only [numeric_range.is_end, numeric_range.ctor4, hnp, if_false,
        decide_eq_false_iff_not]
      omega
    · rw [lt_ceil_toNat_pos (to_ - from_) delta hpos k]
      simp only [numeric_range.is_end, numeric_range.ctor4, hpos, if_true,
        decide_eq_false_iff_not]
      omega
  · intro from_ to_ h a ha
    refine reaches_end_after a 1 _ h _ ha (fun x => rfl) (fun k => ?_)
    rw [Int.lt_toNat, lt_max_iff]
    simp only [range2, numeric_range.is_end, numeric_range.ctor2, decide_eq_false_iff_not]
    omega

/-- The instance of C16 for the descending `range(8, 2, -2)`, alone in the heap. -/
theorem range_terminates_after_ceil_witness :
    ∃ it0,
      numeric_range.begin
        [numeric_range.ctor4 8 2 (Increment.increment_by_traits (-2)) direction.decreasing]
        0 = .ok it0 ∧
      (∀ k : Nat, k < (⌈((2 - 8 : Int) : ℚ) / (((-2 : Int)) : ℚ)⌉).toNat →
        ∃ hk itk e,
          drive (List.replicate k IterOp.preinc)
            [numeric_range.ctor4 8 2 (Increment.increment_by_traits (-2))
              direction.decreasing] it0 = (hk, itk, none) ∧
          numeric_range.end_ hk 0 = .ok e ∧ itk.ne e = true) ∧
      (∃ hn itn e,
        drive (List.replicate (⌈((2 - 8 : Int) : ℚ) / (((-2 : Int)) : ℚ)⌉).toNat
          IterOp.preinc)
          [numeric_range.ctor4 8 2 (Increment.increment_by_traits (-2))
            direction.decreasing] it0 = (hn, itn, none) ∧
        numeric_range.end_ hn 0 = .ok e ∧ itn.eq e = true) ∧
      (∀ fuel : Nat, (⌈((2 - 8 : Int) : ℚ) / (((-2 : Int)) : ℚ)⌉).toNat < fuel →
        ∃ t, for_each fuel
            [numeric_range.ctor4 8 2 (Increment.increment_by_traits (-2))
              direction.decreasing] 0 = some t ∧
          t.raised = none ∧
          t.yielded.length = (⌈((2 - 8 : Int) : ℚ) / (((-2 : Int)) : ℚ)⌉).toNat) :=
  range_terminates_after_ceil.1 8 2 (-2) _ [_] 0 (by decide) rfl rfl

/-! ## A range is single-pass -/

/-- When `k` prefix increments from an iterator that is null exactly when its
range is exhausted all succeed, the range holds the `k`-th successor of its
`current`, and the iterator is null exactly when that state is exhausted. -/
theorem drive_preinc_iterate (a : Nat) :
    ∀ (k : Nat) (h : Heap) (r : numeric_range) (hk : Heap) (itk : iterator),
      h[a]? = some r →
      drive (List.replicate k IterOp.preinc) h
          { range := if r.is_end then none else some a } = (hk, itk, none) →
      hk[a]? = some { r with current := r.inc.apply^[k] r.current } ∧
      itk.range =
        if numeric_range.is_end { r with current := r.inc.apply^[k] r.current }
        then none else some a := by
  intro k
  induction k with
  | zero =>
    intro h r hk itk ha hdr
    simp only [List.replicate_zero, drive, Prod.mk.injEq, and_true] at hdr
    obtain ⟨rfl, rfl⟩ := hdr
    exact ⟨ha, rfl⟩
  | succ k ih =>
    intro h r hk itk ha hdr
    cases hend : r.is_end with
    | true =>
      rw [hend] at hdr
      simp only [if_true, List.replicate_succ, drive, preinc_ended, Prod.mk.injEq] at hdr
      exact absurd hdr.2.2 (by simp)
    | false =>
      rw [hend] at hdr
      simp only [Bool.false_eq_true, if_false, List.replicate_succ, drive,
        preinc_active_ok h a r ha] at hdr
      have := ih _ { r with current := r.inc.apply r.current } hk itk
        (heap_get_set h a r _ ha) hdr
      simpa only [Function.iterate_succ_apply] using this

theorem iterate_apply_add (inc : Increment) (d : Int) (hinc : ∀ x, inc.apply x = x + d)
    (k : Nat) (c : Int) : inc.apply^[k] c = c + (k : Int) * d := by
  induction k generalizing c with
  | zero => simp
  | succ k ih =>
    rw [Function.iterate_succ_apply, ih, hinc]
    push_cast; ring

/-- When the loop, run from an iterator that is null exactly when its range is
exhausted, comes to an end, nothing was raised and the range is exhausted. -/
theorem loop_final_exhausted (a : Nat) :
    ∀ (fuel : Nat) (h : Heap) (r : numeric_range) (t : Trace),
      h[a]? = some r →
      loop a fuel h { range := if r.is_end then none else some a } = some t →
      t.raised = none ∧ ∃ r1, t.heap[a]? = some r1 ∧ r1.is_end = true := by
  intro fuel
  induction fuel with
  | zero => intro h r t _ hl; simp [loop] at hl
  | succ f ih =>
    intro h r t ha hl
    cases hend : r.is_end with
    | true =>
      rw [hend] at hl
      simp only [if_true, loop_ended, Option.some.injEq] at hl
      subst hl
      exact ⟨rfl, r, ha, hend⟩
    | false =>
      rw [hend] at hl
      simp only [Bool.false_eq_true, if_false] at hl
      rw [loop_active a f h r ha] at hl
      cases hrec : loop a f (h.set a { r with current := r.inc.apply r.current })
          { range := if numeric_range.is_end { r with current := r.inc.apply r.current }
                     then none else some a } with
      | none => rw [hrec] at hl; simp at hl
      | some t1 =>
        rw [hrec] at hl
        simp only [Option.map_some', Option.some.injEq] at hl
        subst hl
        exact ih _ { r with current := r.inc.apply r.current } t1
          (heap_get_set h a r _ ha) hrec

/-- C17: `begin()` looks at the current state of the range.  When `k` prefix
increments from `begin()` have succeeded, the range holds the `k`-th successor of
its first `current`, which is `current + k*d` under a policy that adds `d`, and
if the range is not exhausted a fresh `begin()` points at it and dereferences to
that successor.  When the idiomatic loop has come to its end, nothing was raised, a
fresh `begin()` equals `end()`, and a second run of the loop yields nothing. -/
theorem range_is_single_pass (h : Heap) (a : Nat) (r : numeric_range)
    (ha : h[a]? = some r) (it0 : iterator) (hb : numeric_range.begin h a = .ok it0) :
    (∀ (k : Nat) (hk : Heap) (itk : iterator),
      drive (List.replicate k IterOp.preinc) h it0 = (hk, itk, none) →
      ∃ rk, hk[a]? = some rk ∧ rk.current = r.inc.apply^[k] r.current ∧
        (∀ d : Int, (∀ x, r.inc.apply x = x + d) → rk.current = r.current + (k : Int) * d) ∧
        (rk.is_end = false →
          ∃ b, numeric_range.begin hk a = .ok b ∧ b.range = some a ∧
            b.deref hk = .ok (r.inc.apply^[k] r.current))) ∧
    (∀ (fuel : Nat) (t : Trace), for_each fuel h a = some t →
      t.raised = none ∧
      ∃ b e, numeric_range.begin t.heap a = .ok b ∧ numeric_range.end_ t.heap a = .ok e ∧
        b.eq e = true ∧
        ∀ fuel2 : Nat, 0 < fuel2 →
          for_each fuel2 t.heap a = some { heap := t.heap, yielded := [], raised := none }) := by
  rw [begin_eq h a r ha] at hb
  cases hb
  constructor
  · intro k hk itk hdr
    obtain ⟨hg, _⟩ := drive_preinc_iterate a k h r hk itk ha hdr
    refine ⟨_, hg, rfl, fun d hinc => iterate_apply_add r.inc d hinc k r.current, ?_⟩
    intro hne
    refine ⟨_, begin_eq hk a _ hg, ?_, ?_⟩
    · rw [hne]; rfl
    · rw [hne]
      exact deref_active hk a _ hg
  · intro fuel t hl
    rw [for_each, begin_eq h a r ha] at hl
    obtain ⟨hraised, r1, hg, hend⟩ := loop_final_exhausted a fuel h r t ha hl
    refine ⟨hraised, _, _, begin_eq t.heap a r1 hg, end_eq t.heap a, ?_, fun fuel2 hf =>
      for_each_exhausted t.heap a r1 fuel2 hg hend hf⟩
    rw [hend]
    rfl

/-- The instance of C17 for `range(0, 3)` alone in the heap: after two prefix
increments, and after a run of the loop with four units of fuel. -/
theorem range_is_single_pass_witness :
    (∃ rk, ([range2 2 3] : Heap)[0]? = some rk ∧
      rk.current = (range2 0 3).inc.apply^[2] (range2 0 3).current ∧
      (∀ d : Int, (∀ x, (range2 0 3).inc.apply x = x + d) →
        rk.current = (range2 0 3).current + ((2 : Nat) : Int) * d) ∧
      (rk.is_end = false →
        ∃ b, numeric_range.begin [range2 2 3] 0 = .ok b ∧ b.range = some 0 ∧
          b.deref [range2 2 3] = .ok ((range2 0 3).inc.apply^[2] (range2 0 3).current))) ∧
    ((none : Option Error) = none ∧
      ∃ b e, numeric_range.begin [range2 3 3] 0 = .ok b ∧
        numeric_range.end_ [range2 3 3] 0 = .ok e ∧ b.eq e = true ∧
        ∀ fuel2 : Nat, 0 < fuel2 →
          for_each fuel2 [range2 3 3] 0 =
            some { heap := [range2 3 3], yielded := [], raised := none }) :=
  ⟨(range_is_single_pass [range2 0 3] 0 (range2 0 3) rfl { range := some 0 } rfl).1
      2 [range2 2 3] { range := some 0 } rfl,
   (range_is_single_pass [range2 0 3] 0 (range2 0 3) rfl { range := some 0 } rfl).2
      4 { heap := [range2 3 3], yielded := [0, 1, 2], raised := none } rfl⟩

/-! ## A `w`-bit unsigned element type -/

theorem preinc_wrap_active_ok (w : Nat) (h : Heap) (a : Nat) (r : numeric_range)
    (ha : h[a]? = some r) :
    iterator.preinc_wrap w h { range := some a } =
      (h.set a { r with current := r.inc.apply_wrap w r.current },
        .ok { range :=
          if numeric_range.is_end { r with current := r.inc.apply_wrap w r.current }
          then none else some a }) := by
  have hb := begin_eq _ a _
    (heap_get_set h a r { r with current := r.inc.apply_wrap w r.current } ha)
  simp only [numeric_range.begin, iterator.ctor] at hb
  simp only [iterator.preinc_wrap, ha, hb]

theorem loop_wrap_ended (w self fuel : Nat) (h : Heap) :
    loop_wrap w self (fuel + 1) h { range := none } =
      some { heap := h, yielded := [], raised := none } := rfl

theorem loop_wrap_active (w self fuel : Nat) (h : Heap) (r : numeric_range)
    (ha : h[self]? = some r) :
    loop_wrap w self (fuel + 1) h { range := some self } =
      (loop_wrap w self fuel (h.set self { r with current := r.inc.apply_wrap w r.current })
        { range :=
          if numeric_range.is_end { r with current := r.inc.apply_wrap w r.current }
          then none else some self }).map
        (fun t => { t with yielded := r.current :: t.yielded }) := by
  rw [loop_wrap, end_eq, deref_active h self r ha, preinc_wrap_active_ok w h self r ha]
  simp only [iterator.ne, iterator.eq]
  cases loop_wrap w self fuel
    (h.set self { r with current := r.inc.apply_wrap w r.current })
    { range :=
      if numeric_range.is_end { r with current := r.inc.apply_wrap w r.current }
      then none else some self } <;> simp

/-- The counterpart of `loop_progression` for the wrapping policy, as long as no
step of the first `m` wraps. -/
theorem loop_wrap_progression (w self : Nat) (d : Int) :
    ∀ (m : Nat) (h : Heap) (r : numeric_range) (fuel : Nat),
      h[self]? = some r →
      (∀ k : Nat, k < m →
        r.inc.apply_wrap w (r.current + k * d) = r.current + k * d + d) →
      (∀ k : Nat, k < m →
        numeric_range.is_end { r with current := r.current + k * d } = false) →
      numeric_range.is_end { r with current := r.current + m * d } = true →
      m < fuel →
      loop_wrap w self fuel h { range := if r.is_end then none else some self } =
        some { heap := h.set self { r with current := r.current + m * d },
               yielded := (List.range m).map (fun (k : Nat) => r.current + (k : Int) * d),
               raised := none } := by
  intro m
  induction m with
  | zero =>
    intro h r fuel ha _ _ hend hf
    obtain ⟨f, rfl⟩ : ∃ f, fuel = f + 1 := ⟨fuel - 1, by omega⟩
    have hr : { r with current := r.current + ((0 : Nat) : Int) * d } = r := by simp
    rw [hr] at hend
    rw [hr, hend, heap_set_same h self r ha]
    simp [loop_wrap_ended]
  | succ m ih =>
    intro h r fuel ha hinc hlt hend hf
    obtain ⟨f, rfl⟩ : ∃ f, fuel = f + 1 := ⟨fuel - 1, by omega⟩
    have h0 : r.is_end = false := by
      have := hlt 0 (Nat.succ_pos m)
      simpa using this
    have hcur : r.inc.apply_wrap w r.current = r.current + d := by
      have := hinc 0 (Nat.succ_pos m)
      simpa using this
    have e : ∀ j : Nat, r.current + d + (j : Int) * d = r.current + ((j + 1 : Nat) : Int) * d := by
      intro j; push_cast; ring
    have key := ih (h.set self { r with current := r.current + d })
      { r with current := r.current + d } f
      (heap_get_set h self r _ ha)
      (by
        intro k hk
        have := hinc (k + 1) (Nat.succ_lt_succ hk)
        simpa [e k] using this)
      (by
        intro k hk
        have := hlt (k + 1) (Nat.succ_lt_succ hk)
        simpa [e k] using this)
      (by simpa [e m] using hend)
      (by omega)
    rw [h0]
    simp only [Bool.false_eq_true, if_false]
    rw [loop_wrap_active w self f h r ha, hcur, key]
    simp only [Option.map_some', List.set_set, e m]
    congr 2
    rw [List.range_succ_eq_map, List.map_cons, List.map_map]
    simp only [Nat.cast_zero, zero_mul, add_zero, List.cons.injEq, true_and]
    apply List.map_congr_left
    intro k _
    simp only [Function.comp, Nat.succ_eq_add_one]
    push_cast; ring

/-- C18: over a `w`-bit unsigned element type, whose additions wrap modulo `2^w`,
for all values `from < to` and `delta > 0` with `to - 1 + delta < 2^w` (so that
`to` and `delta` are values of the type), there is a number `m > 0` such that
`k < m` exactly when `from + k*delta < to`; none of the first
`m` steps of `range(from, to, delta)` wraps, each staying below `2^w`; and the
idiomatic loop ends without an error, having yielded `from + k*delta` for
`k = 0, ..., m-1` in this order, which is the very run of the loop over the
unbounded integers. -/
theorem unsigned_range_does_not_wrap (w : Nat) (from_ to_ delta : Int)
    (h0 : 0 ≤ from_) (hlt : from_ < to_) (hd : 0 < delta)
    (hb : to_ - 1 + delta < 2 ^ w) (r : numeric_range)
    (hr : range3 from_ to_ delta = .ok r) (h : Heap) (a : Nat) (ha : h[a]? = some r) :
    ∃ m : Nat, 0 < m ∧ to_ < 2 ^ w ∧ delta < 2 ^ w ∧
      (∀ k : Nat, k < m ↔ from_ + (k : Int) * delta < to_) ∧
      (∀ k : Nat, k < m →
        from_ + (k : Int) * delta + delta < 2 ^ w ∧
        r.inc.apply_wrap w (from_ + (k : Int) * delta) = from_ + (k : Int) * delta + delta) ∧
      ∀ fuel : Nat, m < fuel →
        ∃ t, for_each_wrap w fuel h a = some t ∧ t.raised = none ∧
          t.yielded = (List.range m).map (fun (k : Nat) => from_ + (k : Int) * delta) ∧
          for_each fuel h a = some t := by
  have hne : delta ≠ 0 := ne_of_gt hd
  simp only [range3, hne, if_false, Except.ok.injEq] at hr
  subst hr
  obtain ⟨m, hm⟩ := first_ge from_ to_ delta hd
  have hstep : ∀ k : Nat, k < m →
      from_ + (k : Int) * delta + delta < 2 ^ w ∧
      (from_ + (k : Int) * delta + delta) % 2 ^ w = from_ + (k : Int) * delta + delta := by
    intro k hk
    have h1 := (hm k).mp hk
    have h2 : (0 : Int) ≤ (k : Int) * delta :=
      mul_nonneg (Int.ofNat_nonneg k) (le_of_lt hd)
    have h3 : from_ + (k : Int) * delta + delta < 2 ^ w := by linarith
    exact ⟨h3, Int.emod_eq_of_lt (by linarith) h3⟩
  refine ⟨m, (hm 0).mpr (by simpa using hlt), by linarith, by linarith, hm,
    fun k hk => ⟨(hstep k hk).1, (hstep k hk).2⟩, fun fuel hf => ?_⟩
  have hplain := for_each_progression a delta m h _ fuel ha (fun x => rfl)
    (by
      intro k hk
      have := (hm k).mp hk
      simp only [numeric_range.is_end, numeric_range.ctor4, hd, if_true,
        decide_eq_false_iff_not]
      omega)
    (by
      have := (hm m).not.mp (lt_irrefl m)
      simp only [numeric_range.is_end, numeric_range.ctor4, hd, if_true,
        decide_eq_true_eq]
      omega)
    hf
  have hwrap := loop_wrap_progression w a delta m h _ fuel ha
    (fun k hk => (hstep k hk).2)
    (by
      intro k hk
      have := (hm k).mp hk
      simp only [numeric_range.is_end, numeric_range.ctor4, hd, if_true,
        decide_eq_false_iff_not]
      omega)
    (by
      have := (hm m).not.mp (lt_irrefl m)
      simp only [numeric_range.is_end, numeric_range.ctor4, hd, if_true,
        decide_eq_true_eq]
      omega)
    hf
  refine ⟨_, ?_, rfl, rfl, hplain⟩
  rw [for_each_wrap, begin_eq h a _ ha]
  exact hwrap

/-- The instance of C18 for 8 bits and `range(200, 250, 6)`, alone in the heap. -/
theorem unsigned_range_does_not_wrap_witness :
    ∃ m : Nat, 0 < m ∧ (250 : Int) < 2 ^ 8 ∧ (6 : Int) < 2 ^ 8 ∧
      (∀ k : Nat, k < m ↔ (200 : Int) + (k : Int) * 6 < 250) ∧
      (∀ k : Nat, k < m →
        (200 : Int) + (k : Int) * 6 + 6 < 2 ^ 8 ∧
        (numeric_range.ctor4 200 250 (Increment.increment_by_traits 6)
          direction.increasing).inc.apply_wrap 8 ((200 : Int) + (k : Int) * 6) =
          (200 : Int) + (k : Int) * 6 + 6) ∧
      ∀ fuel : Nat, m < fuel →
        ∃ t, for_each_wrap 8 fuel
            [numeric_range.ctor4 200 250 (Increment.increment_by_traits 6)
              direction.increasing] 0 = some t ∧
          t.raised = none ∧
          t.yielded = (List.range m).map (fun (k : Nat) => (200 : Int) + (k : Int) * 6) ∧
          for_each fuel
            [numeric_range.ctor4 200 250 (Increment.increment_by_traits 6)
              direction.increasing] 0 = some t :=
  unsigned_range_does_not_wrap 8 200 250 6 (by decide) (by decide) (by decide)
    (by decide)
    (numeric_range.ctor4 200 250 (Increment.increment_by_traits 6) direction.increasing)
    rfl
    [numeric_range.ctor4 200 250 (Increment.increment_by_traits 6) direction.increasing]
    0 rfl

/-! ## The path functions of `os.hpp` -/

theorem find_last_of_none (c : Char) :
    ∀ p : List Char, os.find_last_of p c = none ↔ c ∉ p := by
  intro p
  induction p with
  | nil => simp [os.find_last_of]
  | cons x xs ih =>
    cases hrec : os.find_last_of xs c with
    | some j =>
      have hin : c ∈ xs := by
        by_contra hc
        rw [ih.mpr hc] at hrec
        cases hrec
      simp [os.find_last_of, hrec, hin]
    | none =>
      have hnot : c ∉ xs := ih.mp hrec
      by_cases hx : x = c
      · simp [os.find_last_of, hrec, hx]
      · have hx2 : ¬ c = x := fun hcx => hx hcx.symm
        simp [os.find_last_of, hrec, hx, hx2, hnot]

theorem find_last_of_some (c : Char) :
    ∀ (p : List Char) (i : Nat), os.find_last_of p c = some i →
      i < p.length ∧ p = p.take i ++ c :: p.drop (i + 1) ∧ c ∉ p.drop (i + 1) := by
  intro p
  induction p with
  | nil => intro i hi; simp [os.find_last_of] at hi
  | cons x xs ih =>
    intro i hi
    cases hrec : os.find_last_of xs c with
    | some j =>
      simp only [os.find_last_of, hrec, Option.some.injEq] at hi
      subst hi
      obtain ⟨h1, h2, h3⟩ := ih j hrec
      refine ⟨by simpa using h1, ?_, by simpa using h3⟩
      simp only [List.take_succ_cons, List.drop_succ_cons, List.cons_append, List.cons.injEq,
        true_and]
      exact h2
    | none =>
      have hnot : c ∉ xs := (find_last_of_none c xs).mp hrec
      by_cases hx : x = c
      · simp only [os.find_last_of, hrec, hx, if_true, Option.some.injEq] at hi
        subst hi
        subst hx
        exact ⟨by simp, by simp, by simpa using hnot⟩
      · simp [os.find_last_of, hrec, hx] at hi

/-- C19: `os::dirname` and `os::basename` split a path at its last `/`.  For
every path that contains a `/` both return a string, `dirname + "/" + basename` is
the path, and the basename contains no `/`; for every path without a `/` the
dirname is the empty string and the basename is the path. -/
theorem dirname_basename_split (p : List Char) :
    ('/' ∈ p →
      ∃ d b, os.dirname p = some d ∧ os.basename p = some b ∧
        d ++ ['/'] ++ b = p ∧ '/' ∉ b) ∧
    ('/' ∉ p → os.dirname p = some [] ∧ os.basename p = some p) := by
  constructor
  · intro hin
    cases hf : os.find_last_of p '/' with
    | none => exact absurd hin ((find_last_of_none '/' p).mp hf)
    | some i =>
      obtain ⟨hlt, hsplit, hnot⟩ := find_last_of_some '/' p i hf
      refine ⟨p.take i, p.drop (i + 1), ?_, ?_, ?_, hnot⟩
      · simp [os.dirname, hf, os.substr]
      · have : ¬ (i + 1 > p.length) := by omega
        simp [os.basename, hf, os.substr_from, this]
      · simpa using hsplit.symm
  · intro hnot
    have hf := (find_last_of_none '/' p).mpr hnot
    simp [os.dirname, os.basename, hf]

/-- The instance of C19 for the path `usr/lib/x.so`. -/
theorem dirname_basename_split_witness :
    ∃ d b, os.dirname ['u', 's', 'r', '/', 'l', 'i', 'b', '/', 'x', '.', 's', 'o'] = some d ∧
      os.basename ['u', 's', 'r', '/', 'l', 'i', 'b', '/', 'x', '.', 's', 'o'] = some b ∧
      d ++ ['/'] ++ b = ['u', 's', 'r', '/', 'l', 'i', 'b', '/', 'x', '.', 's', 'o'] ∧
      '/' ∉ b :=
  (dirname_basename_split ['u', 's', 'r', '/', 'l', 'i', 'b', '/', 'x', '.', 's', 'o']).1
    (by decide)

/-- C20: `os::join` returns the other argument when one is empty, and for
non-empty `d` and `b` it returns `d1 + "/" + b1`, where `d1` is `d` without one
trailing `/`, if it has one, and `b1` is `b` without one leading `/`, if it has
one. -/
theorem join_one_slash_at_seam :
    (∀ b : List Char, os.join [] b = some b) ∧
    (∀ d : List Char, os.join d [] = some d) ∧
    (∀ d b : List Char, d ≠ [] → b ≠ [] →
      os.join d b =
        some ((if d.getLast? = some '/' then d.dropLast else d) ++ ['/'] ++
              (if b.head? = some '/' then b.tail else b))) := by
  refine ⟨fun b => rfl, fun d => ?_, fun d b hd hb => ?_⟩
  · cases d with
    | nil => rfl
    | cons x xs => simp [os.join]
  · have hdl : ¬ d.length = 0 := fun hl => hd (List.length_eq_zero.mp hl)
    have hbl : ¬ b.length = 0 := fun hl => hb (List.length_eq_zero.mp hl)
    by_cases hlast : d.getLast? = some '/'
    · have hsplit : d.dropLast ++ ['/'] = d :=
        List.dropLast_append_getLast? '/' (by simp [hlast])
      by_cases hhead : b.head? = some '/'
      · cases b with
        | nil => exact absurd rfl hb
        | cons y ys =>
          simp only [List.head?_cons, Option.some.injEq] at hhead
          subst hhead
          simp only [os.join, hdl, hbl, hlast, if_true, if_false, List.head?_cons,
            os.substr_from, List.length_cons, List.drop_succ_cons, List.drop_zero,
            List.tail_cons]
          have : ¬ (1 > ys.length + 1) := by omega
          have hz : ¬ (ys.length + 1 = 0) := by omega
          simp only [this, hz, if_false]
          rw [hsplit]
      · simp only [os.join, hdl, hbl, hlast, hhead, if_true, if_false]
        rw [hsplit]
    · by_cases hhead : b.head? = some '/'
      · cases b with
        | nil => exact absurd rfl hb
        | cons y ys =>
          simp only [List.head?_cons, Option.some.injEq] at hhead
          subst hhead
          simp [os.join, hdl, hlast]
      · simp [os.join, hdl, hbl, hlast, hhead]

/-- The instance of C20 for `join("a/", "/x")`. -/
theorem join_one_slash_at_seam_witness :
    os.join ['a', '/'] ['/', 'x'] =
      some ((if (['a', '/'] : List Char).getLast? = some '/'
              then (['a', '/'] : List Char).dropLast else ['a', '/']) ++ ['/'] ++
            (if (['/', 'x'] : List Char).head? = some '/'
              then (['/', 'x'] : List Char).tail else ['/', 'x'])) :=
  join_one_slash_at_seam.2.2 ['a', '/'] ['/', 'x'] (by decide) (by decide)

/-! ## The stepped range over an arbitrary element type -/

theorem preinc_in_active_ok (add : Int → Int → Int) (h : Heap) (a : Nat)
    (r : numeric_range) (ha : h[a]? = some r) :
    iterator.preinc_in add h { range := some a } =
      (h.set a { r with current := r.inc.apply_in add r.current },
        .ok { range :=
          if numeric_range.is_end { r with current := r.inc.apply_in add r.current }
          then none else some a }) := by
  have hb := begin_eq _ a _
    (heap_get_set h a r { r with current := r.inc.apply_in add r.current } ha)
  simp only [numeric_range.begin, iterator.ctor] at hb
  simp only [iterator.preinc_in, ha, hb]

theorem loop_in_ended (add : Int → Int → Int) (self fuel : Nat) (h : Heap) :
    loop_in add self (fuel + 1) h { range := none } =
      some { heap := h, yielded := [], raised := none } := rfl

theorem loop_in_active (add : Int → Int → Int) (self fuel : Nat) (h : Heap)
    (r : numeric_range) (ha : h[self]? = some r) :
    loop_in add self (fuel + 1) h { range := some self } =
      (loop_in add self fuel (h.set self { r with current := r.inc.apply_in add r.current })
        { range :=
          if numeric_range.is_end { r with current := r.inc.apply_in add r.current }
          then none else some self }).map
        (fun t => { t with yielded := r.current :: t.yielded }) := by
  rw [loop_in, end_eq, deref_active h self r ha, preinc_in_active_ok add h self r ha]
  simp only [iterator.ne, iterator.eq]
  cases loop_in add self fuel
    (h.set self { r with current := r.inc.apply_in add r.current })
    { range :=
      if numeric_range.is_end { r with current := r.inc.apply_in add r.current }
      then none else some self } <;> simp

/-- The counterpart of `loop_progression` for an element type whose addition is
`add`, as long as `add` is exact on each of the first `m` steps. -/
theorem loop_in_progression (add : Int → Int → Int) (self : Nat) (d : Int) :
    ∀ (m : Nat) (h : Heap) (r : numeric_range) (fuel : Nat),
      h[self]? = some r →
      (∀ k : Nat, k < m →
        r.inc.apply_in add (r.current + k * d) = r.current + k * d + d) →
      (∀ k : Nat, k < m →
        numeric_range.is_end { r with current := r.current + k * d } = false) →
      numeric_range.is_end { r with current := r.current + m * d } = true →
      m < fuel →
      loop_in add self fuel h { range := if r.is_end then none else some self } =
        some { heap := h.set self { r with current := r.current + m * d },
               yielded := (List.range m).map (fun (k : Nat) => r.current + (k : Int) * d),
               raised := none } := by
  intro m
  induction m with
  | zero =>
    intro h r fuel ha _ _ hend hf
    obtain ⟨f, rfl⟩ : ∃ f, fuel = f + 1 := ⟨fuel - 1, by omega⟩
    have hr : { r with current := r.current + ((0 : Nat) : Int) * d } = r := by simp
    rw [hr] at hend
    rw [hr, hend, heap_set_same h self r ha]
    simp [loop_in_ended]
  | succ m ih =>
    intro h r fuel ha hinc hlt hend hf
    obtain ⟨f, rfl⟩ : ∃ f, fuel = f + 1 := ⟨fuel - 1, by omega⟩
    have h0 : r.is_end = false := by
      have := hlt 0 (Nat.succ_pos m)
      simpa using this
    have hcur : r.inc.apply_in add r.current = r.current + d := by
      have := hinc 0 (Nat.succ_pos m)
      simpa using this
    have e : ∀ j : Nat, r.current + d + (j : Int) * d = r.current + ((j + 1 : Nat) : Int) * d := by
      intro j; push_cast; ring
    have key := ih (h.set self { r with current := r.current + d })
      { r with current := r.current + d } f
      (heap_get_set h self r _ ha)
      (by
        intro k hk
        have := hinc (k + 1) (Nat.succ_lt_succ hk)
        simpa [e k] using this)
      (by
        intro k hk
        have := hlt (k + 1) (Nat.succ_lt_succ hk)
        simpa [e k] using this)
      (by simpa [e m] using hend)
      (by omega)
    rw [h0]
    simp only [Bool.false_eq_true, if_false]
    rw [loop_in_active add self f h r ha, hcur, key]
    simp only [Option.map_some', List.set_set, e m]
    congr 2
    rw [List.range_succ_eq_map, List.map_cons, List.map_map]
    simp only [Nat.cast_zero, zero_mul, add_zero, List.cons.injEq, true_and]
    apply List.map_congr_left
    intro k _
    simp only [Function.comp, Nat.succ_eq_add_one]
    push_cast; ring

/-- The number of terms of a progression with a non-zero step that lie strictly
before the bound in the direction of the step. -/
theorem first_not_before (c f d : Int) (hd : d ≠ 0) :
    ∃ m : Nat, ∀ k : Nat, k < m ↔
      ((0 < d ∧ c + (k : Int) * d < f) ∨ (d < 0 ∧ c + (k : Int) * d > f)) := by
  rcases lt_or_gt_of_ne hd with hneg | hpos
  · obtain ⟨m, hm⟩ := first_le c f d hneg
    refine ⟨m, fun k => ?_⟩
    rw [hm k]
    constructor
    · intro hk; exact Or.inr ⟨hneg, hk⟩
    · rintro (⟨hp, _⟩ | ⟨_, hk⟩)
      · omega
      · exact hk
  · obtain ⟨m, hm⟩ := first_ge c f d hpos
    refine ⟨m, fun k => ?_⟩
    rw [hm k]
    constructor
    · intro hk; exact Or.inl ⟨hpos, hk⟩
    · rintro (⟨_, hk⟩ | ⟨hn, _⟩)
      · exact hk
      · omega

/-- What the factory `range(from, to, delta)` returns for a non-zero `delta`, and
when a state of that range is not at its end. -/
theorem range3_ok (from_ to_ delta : Int) (r : numeric_range) (hd : delta ≠ 0)
    (hr : range3 from_ to_ delta = .ok r) :
    r.current = from_ ∧ r.inc = Increment.increment_by_traits delta ∧
    ∀ x : Int, numeric_range.is_end { r with current := x } = false ↔
      ((0 < delta ∧ x < to_) ∨ (delta < 0 ∧ x > to_)) := by
  simp only [range3, hd, if_false, Except.ok.injEq] at hr
  subst hr
  refine ⟨rfl, rfl, fun x => ?_⟩
  by_cases hp : delta > 0
  · have he : numeric_range.is_end
        { numeric_range.ctor4 from_ to_ (Increment.increment_by_traits delta)
            (if delta > 0 then direction.increasing else direction.decreasing) with
          current := x } = decide (x ≥ to_) := by
      simp only [numeric_range.is_end, numeric_range.ctor4, hp, if_true]
    rw [he, decide_eq_false_iff_not]
    constructor
    · intro hx; exact Or.inl ⟨hp, by omega⟩
    · rintro (⟨_, hx⟩ | ⟨hn, _⟩) <;> omega
  · have hneg : delta < 0 := by omega
    have he : numeric_range.is_end
        { numeric_range.ctor4 from_ to_ (Increment.increment_by_traits delta)
            (if delta > 0 then direction.increasing else direction.decreasing) with
          current := x } = decide (x ≤ to_) := by
      simp only [numeric_range.is_end, numeric_range.ctor4, hp, if_false]
    rw [he, decide_eq_false_iff_not]
    constructor
    · intro hx; exact Or.inr ⟨hneg, by omega⟩
    · rintro (⟨hq, _⟩ | ⟨_, hx⟩) <;> omega

/-- C2, as stated, fails for an element type of fixed width: with 8-bit unsigned
values, `range(250, 252, 6)` should yield `250` alone, `250 + 6` not being below
`252`; but `250 + 6` wraps to `0`, and the loop yields the 43 values
`250, 0, 6, 12, ..., 246`. -/
theorem range_step_yields_counterexample :
    ∃ r, range3 250 252 6 = .ok r ∧
      (250 : Int) < 2 ^ 8 ∧ (252 : Int) < 2 ^ 8 ∧ (6 : Int) < 2 ^ 8 ∧
      ((250 : Int) + ((0 : Nat) : Int) * 6 < 252 ∧
        ¬ ((250 : Int) + ((1 : Nat) : Int) * 6 < 252)) ∧
      ∃ t, for_each_wrap 8 44 [r] 0 = some t ∧ t.raised = none ∧
        t.yielded = 250 :: (List.range 42).map (fun (k : Nat) => (6 : Int) * (k : Int)) ∧
        t.yielded ≠ [250] :=
  ⟨numeric_range.ctor4 250 252 (Increment.increment_by_traits 6) direction.increasing,
    rfl, by decide, by decide, by decide, by decide,
    { heap := [numeric_range.ctor4 252 252 (Increment.increment_by_traits 6)
                direction.increasing],
      yielded := 250 :: (List.range 42).map (fun (k : Nat) => (6 : Int) * (k : Int)),
      raised := none },
    rfl, rfl, rfl, by decide⟩

/-- C2, amended: for all `from`, `to` and every non-zero `delta` there is a number
`m` such that `k < m` exactly for those `k` with `from + k*delta` strictly before
`to` in the direction of `delta`, and, over any element type whose addition is
exact on the steps taken, that is computes `(from + k*delta) + delta` for every
`k < m`, the idiomatic loop over `range(from, to, delta)` ends without an error
having yielded exactly `from + k*delta` for `k = 0, ..., m-1`, in this order.
The addition is exact on these steps over the unbounded integers always, and over
a `w`-bit unsigned type whenever `delta > 0` and, if `from < to`,
`to - 1 + delta < 2^w`.  In particular `range(2, 8, 2)` yields `2, 4, 6` and
`range(8, 2, -2)` yields `8, 6, 4` over any element type that computes their three
steps exactly. -/
theorem range_step_yields_if_exact :
    (∀ (from_ to_ delta : Int) (r : numeric_range) (h : Heap) (a : Nat),
      delta ≠ 0 → range3 from_ to_ delta = .ok r → h[a]? = some r →
      ∃ m : Nat,
        (∀ k : Nat, k < m ↔
          ((0 < delta ∧ from_ + (k : Int) * delta < to_) ∨
           (delta < 0 ∧ from_ + (k : Int) * delta > to_))) ∧
        (∀ add : Int → Int → Int,
          (∀ k : Nat, k < m →
            add (from_ + (k : Int) * delta) delta = from_ + (k : Int) * delta + delta) →
          ∀ fuel : Nat, m < fuel →
            ∃ t, for_each_in add fuel h a = some t ∧ t.raised = none ∧
              t.yielded =
                (List.range m).map (fun (k : Nat) => from_ + (k : Int) * delta)) ∧
        (∀ fuel : Nat, m < fuel →
          ∃ t, for_each fuel h a = some t ∧ t.raised = none ∧
            t.yielded = (List.range m).map (fun (k : Nat) => from_ + (k : Int) * delta)) ∧
        (∀ w : Nat, 0 ≤ from_ → 0 < delta → (from_ < to_ → to_ - 1 + delta < 2 ^ w) →
          ∀ fuel : Nat, m < fuel →
            ∃ t, for_each_wrap w fuel h a = some t ∧ t.raised = none ∧
              t.yielded =
                (List.range m).map (fun (k : Nat) => from_ + (k : Int) * delta))) ∧
    (∀ add : Int → Int → Int, add 2 2 = 4 → add 4 2 = 6 → add 6 2 = 8 →
      ∃ r, range3 2 8 2 = .ok r ∧ ∀ fuel : Nat, 3 < fuel →
        ∃ t, for_each_in add fuel [r] 0 = some t ∧ t.raised = none ∧
          t.yielded = [2, 4, 6]) ∧
    (∀ add : Int → Int → Int, add 8 (-2) = 6 → add 6 (-2) = 4 → add 4 (-2) = 2 →
      ∃ r, range3 8 2 (-2) = .ok r ∧ ∀ fuel : Nat, 3 < fuel →
        ∃ t, for_each_in add fuel [r] 0 = some t ∧ t.raised = none ∧
          t.yielded = [8, 6, 4]) := by
  refine ⟨?_, ?_, ?_⟩
  · intro from_ to_ delta r h a hd hr ha
    obtain ⟨hcur, hinc, hend_iff⟩ := range3_ok from_ to_ delta r hd hr
    obtain ⟨m, hm⟩ := first_not_before from_ to_ delta hd
    have hnot : ∀ k : Nat, k < m →
        numeric_range.is_end { r with current := r.current + (k : Int) * delta } = false := by
      intro k hk
      rw [hcur]
      exact (hend_iff _).mpr ((hm k).mp hk)
    have hend : numeric_range.is_end
        { r with current := r.current + (m : Int) * delta } = true := by
      rw [hcur]
      cases hc : numeric_range.is_end { r with current := from_ + (m : Int) * delta } with
      | true => rfl
      | false => exact absurd ((hm m).mpr ((hend_iff _).mp hc)) (lt_irrefl m)
    have hlist : (List.range m).map (fun (k : Nat) => r.current + (k : Int) * delta) =
        (List.range m).map (fun (k : Nat) => from_ + (k : Int) * delta) := by
      rw [hcur]
    refine ⟨m, hm, fun add hadd fuel hf => ?_, fun fuel hf => ?_,
      fun w h0 hpos hbound fuel hf => ?_⟩
    · have hrun := loop_in_progression add a delta m h r fuel ha
        (by
          intro k hk
          rw [hinc, hcur]
          exact hadd k hk)
        hnot hend hf
      have hfe := (show for_each_in add fuel h a =
          loop_in add a fuel h { range := if r.is_end then none else some a } by
        rw [for_each_in, begin_eq h a r ha]).trans hrun
      exact ⟨_, hfe, rfl, hlist⟩
    · have hrun := for_each_progression a delta m h r fuel ha
        (by intro x; rw [hinc]; rfl) hnot hend hf
      exact ⟨_, hrun, rfl, hlist⟩
    · have hrun := loop_wrap_progression w a delta m h r fuel ha
        (by
          intro k hk
          rw [hinc, hcur]
          have hbefore : from_ + (k : Int) * delta < to_ := by
            rcases (hm k).mp hk with ⟨_, hb⟩ | ⟨hn, _⟩
            · exact hb
            · omega
          have hk0 : (0 : Int) ≤ (k : Int) * delta :=
            mul_nonneg (Int.ofNat_nonneg k) (le_of_lt hpos)
          have hlt : from_ < to_ := by linarith
          have hb2 := hbound hlt
          exact Int.emod_eq_of_lt (by linarith) (by linarith))
        hnot hend hf
      have hfe := (show for_each_wrap w fuel h a =
          loop_wrap w a fuel h { range := if r.is_end then none else some a } by
        rw [for_each_wrap, begin_eq h a r ha]).trans hrun
      exact ⟨_, hfe, rfl, hlist⟩
  · intro add h1 h2 h3
    refine ⟨_, rfl, fun fuel hf => ?_⟩
    have hrun := loop_in_progression add 0 2 3
      [numeric_range.ctor4 2 8 (Increment.increment_by_traits 2) direction.increasing]
      _ fuel rfl
      (by
        intro k hk
        interval_cases k
        · exact h1
        · exact h2
        · exact h3)
      (by intro k hk; interval_cases k <;> decide) (by decide) hf
    exact ⟨_, hrun, rfl, by simp [numeric_range.ctor4, List.range_succ]⟩
  · intro add h1 h2 h3
    refine ⟨_, rfl, fun fuel hf => ?_⟩
    have hrun := loop_in_progression add 0 (-2) 3
      [numeric_range.ctor4 8 2 (Increment.increment_by_traits (-2)) direction.decreasing]
      _ fuel rfl
      (by
        intro k hk
        interval_cases k
        · exact h1
        · exact h2
        · exact h3)
      (by intro k hk; interval_cases k <;> decide) (by decide) hf
    exact ⟨_, hrun, rfl, by simp [numeric_range.ctor4, List.range_succ]⟩

/-- The instance of the amended C2 at `range(3, 20, 5)`, alone in the heap. -/
theorem range_step_yields_if_exact_witness :
    ∃ m : Nat,
      (∀ k : Nat, k < m ↔
        (((0 : Int) < 5 ∧ (3 : Int) + (k : Int) * 5 < 20) ∨
         ((5 : Int) < 0 ∧ (3 : Int) + (k : Int) * 5 > 20))) ∧
      (∀ add : Int → Int → Int,
        (∀ k : Nat, k < m →
          add ((3 : Int) + (k : Int) * 5) 5 = (3 : Int) + (k : Int) * 5 + 5) →
        ∀ fuel : Nat, m < fuel →
          ∃ t, for_each_in add fuel
              [numeric_range.ctor4 3 20 (Increment.increment_by_traits 5)
                direction.increasing] 0 = some t ∧
            t.raised = none ∧
            t.yielded = (List.range m).map (fun (k : Nat) => (3 : Int) + (k : Int) * 5)) ∧
      (∀ fuel : Nat, m < fuel →
        ∃ t, for_each fuel
            [numeric_range.ctor4 3 20 (Increment.increment_by_traits 5)
              direction.increasing] 0 = some t ∧
          t.raised = none ∧
          t.yielded = (List.range m).map (fun (k : Nat) => (3 : Int) + (k : Int) * 5)) ∧
      (∀ w : Nat, (0 : Int) ≤ 3 → (0 : Int) < 5 →
        ((3 : Int) < 20 → (20 : Int) - 1 + 5 < 2 ^ w) →
        ∀ fuel : Nat, m < fuel →
          ∃ t, for_each_wrap w fuel
              [numeric_range.ctor4 3 20 (Increment.increment_by_traits 5)
                direction.increasing] 0 = some t ∧
            t.raised = none ∧
            t.yielded = (List.range m).map (fun (k : Nat) => (3 : Int) + (k : Int) * 5)) :=
  range_step_yields_if_exact.1 3 20 5 _ [_] 0 (by decide) rfl rfl

end urara
